import Mathlib

/-!
Verification development for the skare3_tools release-timeline engine.

The definitions below are a shallow embedding of the algorithmic core of
`skare3_tools/packages.py` and
`skare3_tools/scripts/skare3_update_summary.py`:

* cursor pagination (`get_all_nodes`),
* tag-chain resolution (`get_tag_target`, source name `_get_tag_target`),
* merge attribution (`pr_commits`, source name `_pr_commits`),
* release-window construction (`releaseInfoV4` and `getRepositoryInfoV4`,
  mirroring `_get_repository_info_v4`; `walkWindows` mirroring the linear
  walk of `_get_repository_info_v3`),
* the two-manifest change summary (`repository_change_summary`).

External collaborators (the HTTP transport, the GitHub compare endpoint,
the PEP 440 version parser of the `packaging` library, the on-disk cache)
are passed in as explicit function parameters; everything that is
algorithmic in the Python source is translated directly.
-/

namespace Skare3

/-- Commit record as consumed from the paginated commit queries: the
fields `oid` and `message` are the only ones the windowing and merge
attribution code reads. -/
structure Commit where
  oid : String
  message : String
deriving DecidableEq, Repr

/-- Pull-request record, restricted to the fields `_pr_commits` reads:
`number`, `title`, `mergeCommit.oid` (optional), `headRefName` and
`author.name`. -/
structure PullRequest where
  number : Nat
  title : String
  mergeCommit : Option String
  headRefName : String
  authorName : String
deriving DecidableEq, Repr

/-- Merge record produced by `_pr_commits`: the regex fallback path can
leave the title group unset, hence `title : Option String`. -/
structure Merge where
  pr_number : Nat
  title : Option String
  branch : String
  author : String
deriving DecidableEq, Repr

/-- Tag reference as returned by the GraphQL release query: either a
commit object carrying `oid` and `committedDate`, or an annotated tag
wrapping a `target`.  `_get_tag_target` recurses while the node has a
`target` key. -/
inductive TagNode where
  | commit (oid : String) (committedDate : String) : TagNode
  | tag (target : TagNode) : TagNode
deriving DecidableEq, Repr

/-- Translation of `_get_tag_target` (packages.py line 318): unwrap
`target` links until a commit node is reached, returning its hash and
commit date. -/
def get_tag_target : TagNode → String × String
  | .commit oid date => (oid, date)
  | .tag target => get_tag_target target

/-- Reachability along tag `target` links: `Unwraps t u` holds when `u`
is an intermediate link of the chain starting at `t` (including `t`
itself). -/
inductive Unwraps : TagNode → TagNode → Prop
  | refl (t : TagNode) : Unwraps t t
  | step (t u : TagNode) : Unwraps t u → Unwraps (TagNode.tag t) u

/-! ### Pagination (`get_all_nodes`, packages.py lines 463-495) -/

/-- One page of a cursor-paginated collection, as extracted from the
GraphQL response by `get_all_nodes`: the node list, the relevant
page-info pair (`hasNextPage`/`endCursor` in forward mode,
`hasPreviousPage`/`startCursor` in reverse mode), and the optional
`errors` entry checked by `check_api_errors`. -/
structure Page (α : Type) where
  nodes : List α
  hasMore : Bool
  nextCursor : String
  errors : Option String := none

/-- Message of the RuntimeError raised by `get_all_nodes` when the
cursor does not advance. -/
def stalledMsg : String := "Cursor did not change and will cause an infinite loop"

/-- Loop body of `get_all_nodes`: `cur` is the cursor used for the page
held in `data`, `acc` the nodes accumulated so far.  While the page
reports more results, the next cursor is compared against the one just
used and the next page is fetched.  The fetch callback `f` stands for
rendering the query with the cursor and calling the GitHub API; `fuel`
bounds the iteration so the translation is total (the Python loop has no
bound, which is why the stall check exists). -/
def getAllNodesLoop (f : String → Page α) : Nat → String → Page α → List α → Except String (List α)
  | fuel, cur, data, acc =>
    if data.hasMore then
      if cur = data.nextCursor then .error stalledMsg
      else
        match fuel with
        | 0 => .error "fuel exhausted"
        | fuel' + 1 =>
          let cur' := data.nextCursor
          let data' := f cur'
          match data'.errors with
          | some msg => .error msg
          | none => getAllNodesLoop f fuel' cur' data' (acc ++ data'.nodes)
    else .ok acc

/-- Translation of `get_all_nodes`: fetch the page at the starting
cursor, check it for API errors, then accumulate following pages until
`hasMore` is false. -/
def get_all_nodes (f : String → Page α) (fuel : Nat) (start : String) : Except String (List α) :=
  let data := f start
  match data.errors with
  | some msg => .error msg
  | none => getAllNodesLoop f fuel start data data.nodes

/-- Well-behaved finite continuation of a paginated source: starting
from cursor `c` whose page has already been fetched, the loop finishes
after `n` further fetches and those fetches contribute `rest`, each page
being reached with a fresh (changed) cursor and without API errors. -/
inductive Collects (f : String → Page α) : String → List α → Nat → Prop
  | done (c : String) : (f c).hasMore = false → Collects f c [] 0
  | step (c : String) (rest : List α) (n : Nat) :
      (f c).hasMore = true →
      (f c).nextCursor ≠ c →
      (f (f c).nextCursor).errors = none →
      Collects f (f c).nextCursor rest n →
      Collects f c ((f (f c).nextCursor).nodes ++ rest) (n + 1)

/-! ### Merge attribution (`_pr_commits`, packages.py lines 507-535) -/

/-- Boolean test that `pat` is an initial segment of `text` (used to
model literal parts of the merge-commit regex). -/
def listStartsWith : List Char → List Char → Bool
  | [], _ => true
  | _ :: _, [] => false
  | p :: ps, c :: cs => p = c && listStartsWith ps cs

/-- Captured groups of the merge-commit message pattern
`Merge pull request #(?P<pr_number>.+) from (?P<branch>\S+)(\n\n(?P<title>.+))?`. -/
structure MergeMatch where
  prNumberStr : String
  branch : String
  title : Option String
deriving DecidableEq, Repr

/-- Model of `re.match` with the merge-commit pattern above.  `re.match`
anchors at the start only; `.` does not cross a newline, so both the
number group and the literal ` from ` lie on the first line; the greedy
`.+` makes the match use the last occurrence of ` from ` (on the first
line) that is followed by at least one non-whitespace character; the
branch group is the maximal non-whitespace run after it; the optional
title group matches only when the branch run is immediately followed by
two newlines and a nonempty line.  Whitespace is modelled by
`Char.isWhitespace` (Python `\s` also covers form feed and vertical
tab; no message in this development depends on those). -/
def matchMergeMessage (msg : String) : Option MergeMatch :=
  let pat := "Merge pull request #".data
  let m := msg.data
  if listStartsWith pat m then
    let rest := m.drop pat.length
    let line1 := rest.takeWhile (fun c => c ≠ '\n')
    let fromPat := " from ".data
    let good := fun i =>
      decide (1 ≤ i) && listStartsWith fromPat (line1.drop i) &&
        (match line1.drop (i + fromPat.length) with
         | [] => false
         | c :: _ => !c.isWhitespace)
    match ((List.range line1.length).filter good).getLast? with
    | none => none
    | some i =>
      let numStr := (line1.take i).asString
      let branchChars := (line1.drop (i + fromPat.length)).takeWhile (fun c => !c.isWhitespace)
      let afterBranch := rest.drop (i + fromPat.length + branchChars.length)
      let title :=
        match afterBranch with
        | '\n' :: '\n' :: t =>
          let tl := t.takeWhile (fun c => c ≠ '\n')
          if tl.isEmpty then none else some tl.asString
        | _ => none
      some ⟨numStr, branchChars.asString, title⟩
  else none

/-- Index of pull requests by merge-commit hash (`pulls_v_hash`): a
Python dict comprehension keyed by `mergeCommit.oid`, so a later pull
request with the same hash overwrites an earlier one — hence the lookup
scans from the end. -/
def pullsVHash (prs : List PullRequest) (oid : String) : Option PullRequest :=
  prs.reverse.find? (fun pr => pr.mergeCommit = some oid)

/-- Loop of `_pr_commits` over the commit list, accumulating merges in
processing order.  The regex fallback converts the captured number with
Python `int(...)`, which raises on a non-numeric capture; that
conversion is modelled with `String.toNat?` and an error result. -/
def prCommitsLoop (prs : List PullRequest) : List Commit → List Merge → Except String (List Merge)
  | [], acc => .ok acc
  | c :: cs, acc =>
    match pullsVHash prs c.oid with
    | some pr => prCommitsLoop prs cs (acc ++ [⟨pr.number, some pr.title, pr.headRefName, pr.authorName⟩])
    | none =>
      match matchMergeMessage c.message with
      | some mm =>
        match mm.prNumberStr.toNat? with
        | some n => prCommitsLoop prs cs (acc ++ [⟨n, mm.title, mm.branch, "Unknown"⟩])
        | none => .error "invalid literal for int() with base 10"
      | none => prCommitsLoop prs cs acc

/-- Translation of `_pr_commits`: for each commit, prefer the
merge-commit-hash index; otherwise fall back to the message pattern;
commits matching neither contribute nothing. -/
def pr_commits (commits : List Commit) (prs : List PullRequest) : Except String (List Merge) :=
  prCommitsLoop prs commits []

/-! ### Release filtering, ordering and the `since` window
(`_get_repository_info_v4`, packages.py lines 612-740) -/

/-- Raw release node: tag name, draft and prerelease flags, the tag
reference and the publication date. -/
structure RawRelease where
  tagName : String
  isDraft : Bool
  isPrerelease : Bool
  tag : TagNode
  publishedAt : String
deriving DecidableEq, Repr

/-- Sort key of a release under the version parser `ver` (a parameter
standing for `packaging.version.Version`; `none` models
`InvalidVersion`).  Qualifying releases always parse, so the default is
never reached on them. -/
def verKey (ver : String → Option Nat) (r : RawRelease) : Nat :=
  (ver r.tagName).getD 0

/-- Translation of packages.py lines 613-626: drop drafts and
prereleases, collect the tag names whose version fails to parse into an
exclusion list, drop releases whose tag name is excluded, and stable-sort
the rest by parsed version, descending (Python `sorted(...,
reverse=True)` is stable, as is `List.insertionSort`). -/
def qualifying (ver : String → Option Nat) (rels : List RawRelease) : List RawRelease :=
  let rels1 := rels.filter (fun r => !r.isPrerelease && !r.isDraft)
  let exclude := (rels1.filter (fun r => (ver r.tagName).isNone)).map (fun r => r.tagName)
  let rels2 := rels1.filter (fun r => !(exclude.contains r.tagName))
  rels2.insertionSort (fun a b => verKey ver b ≤ verKey ver a)

/-- The `since` argument: an integer look-back count, a tag name, or
None. -/
inductive SinceArg where
  | int (n : Nat)
  | tag (t : String)
  | none
deriving DecidableEq, Repr

/-- Message of the exception raised for an unknown `since` tag (the
source interpolates the offending value and the known tags). -/
def sinceErrMsg : String :=
  "Requested repository info with since which is not an integer and is not one of the known releases"

/-- Translation of packages.py lines 629-640: an integer keeps the last
`since` releases plus one more as compare base; a known tag keeps up to
that tag inclusive plus one more as compare base; an unknown tag raises;
None keeps everything. -/
def applySince (since : SinceArg) (releases : List RawRelease) (release_tags : List String) :
    Except String (List RawRelease) :=
  match since with
  | .int n => .ok (releases.take (n + 1))
  | .tag t =>
    if release_tags.contains t then .ok (releases.take (release_tags.indexOf t + 2))
    else .error sinceErrMsg
  | .none => .ok releases

/-- One entry of `release_info`.  The synthetic first entry has no
`release_sha` key in the source, hence the `Option`; `commits` becomes
`none` when the builder deletes the key (`include_commits=False`). -/
structure RelEntry where
  release_tag : String
  release_tag_date : String
  release_sha : Option String
  release_commit_date : String
  commits : Option (List Commit)
  merges : List Merge
deriving DecidableEq, Repr

/-- Entry built for the pair loop head (packages.py lines 681-688): the
window is labelled by the newer release of the pair and carries the
merges attributed from the compare range; the literal `commits` list is
always empty at this point. -/
def mkPairEntry (compare : String → String → List Commit) (prs : List PullRequest)
    (base head : RawRelease) : Except String RelEntry :=
  match pr_commits (compare base.tagName head.tagName) prs with
  | .error e => .error e
  | .ok relPrs =>
    .ok ⟨head.tagName, head.publishedAt, some (get_tag_target head.tag).1,
      (get_tag_target head.tag).2, some [], relPrs⟩

/-- The pair loop of packages.py lines 670-689: one window per
`(base, head)` pair, appended in order; a failure aborts the build. -/
def pairEntriesLoop (compare : String → String → List Commit) (prs : List PullRequest) :
    List (RawRelease × RawRelease) → Except String (List RelEntry)
  | [] => .ok []
  | p :: ps =>
    match mkPairEntry compare prs p.1 p.2 with
    | .error e => .error e
    | .ok entry =>
      match pairEntriesLoop compare prs ps with
      | .error e => .error e
      | .ok rest => .ok (entry :: rest)

/-- Translation of packages.py lines 612-694: qualify and order the
releases, apply `since`, attribute the unreleased range (all commits
when there is no release, otherwise the compare range from the latest
release to the default branch), build one window per adjacent release
pair, and finally re-sort the real windows by version, descending.  The
`compare` parameter stands for the paginated GitHub compare endpoint
(base ref, head ref); `now` stands for `datetime.now().isoformat()`. -/
def releaseInfoV4 (ver : String → Option Nat) (compare : String → String → List Commit)
    (now defaultBranch : String) (hist : List Commit) (rels : List RawRelease)
    (prs : List PullRequest) (since : SinceArg) : Except String (List RelEntry) :=
  let q := qualifying ver rels
  let release_tags := q.map (fun r => r.tagName)
  match applySince since q release_tags with
  | .error e => .error e
  | .ok releases =>
    let unreleasedSrc :=
      match releases with
      | [] => hist
      | r0 :: _ => compare r0.tagName defaultBranch
    match pr_commits unreleasedSrc prs with
    | .error e => .error e
    | .ok rel_prs =>
      match pairEntriesLoop compare prs (releases.tail.zip releases) with
      | .error e => .error e
      | .ok entries =>
        .ok (⟨"", "", Option.none, now, some [], rel_prs⟩ ::
          entries.insertionSort
            (fun a b => (ver b.release_tag).getD 0 ≤ (ver a.release_tag).getD 0))

/-- Top-level repository info restricted to the fields the claims are
about (the counters built from out-of-scope HTTP calls — branches,
issues, workflows, open pull requests — are omitted). -/
structure RepoInfo where
  last_tag : String
  last_tag_date : String
  commits : Nat
  merges : Nat
  merge_info : List Merge
  release_info : List RelEntry
deriving DecidableEq, Repr

/-- Deletion of the per-entry `commits` key (packages.py lines
731-733, under `include_commits=False`). -/
def delCommits (l : List RelEntry) : List RelEntry :=
  l.map (fun e => { e with commits := Option.none })

/-- Assembly of the top-level info from `release_info` (packages.py
lines 696-733): latest tag from the second entry, counters and merge
list from the first entry — computed before the `commits` keys are
deleted — then the deletion unless `include_commits`. -/
def buildRepoInfo (now : String) (release_info : List RelEntry)
    (include_commits : Bool) : RepoInfo :=
  let lastPair :=
    match release_info with
    | _ :: e :: _ => (e.release_tag, e.release_tag_date)
    | _ => ("", "")
  let headEntry := release_info.headD ⟨"", "", Option.none, now, some [], []⟩
  let info0 : RepoInfo :=
    { last_tag := lastPair.1, last_tag_date := lastPair.2,
      commits := (headEntry.commits.getD []).length,
      merges := headEntry.merges.length,
      merge_info := headEntry.merges,
      release_info := release_info }
  if include_commits then info0
  else { info0 with release_info := delCommits info0.release_info }

/-- Zeroing of the top-level counters for a repository with a single
window (packages.py lines 735-738, under
`include_unreleased_commits=False`); `release_info` itself is not
touched. -/
def hideUnreleased (include_unreleased_commits : Bool) (info : RepoInfo) : RepoInfo :=
  if !include_unreleased_commits && info.release_info.length == 1 then
    { info with commits := 0, merges := 0, merge_info := [] }
  else info

/-- Translation of packages.py lines 696-740: build the windows, then
assemble and post-process the top-level record. -/
def getRepositoryInfoV4 (ver : String → Option Nat) (compare : String → String → List Commit)
    (now defaultBranch : String) (hist : List Commit) (rels : List RawRelease)
    (prs : List PullRequest) (since : SinceArg)
    (include_unreleased_commits include_commits : Bool) : Except String RepoInfo :=
  match releaseInfoV4 ver compare now defaultBranch hist rels prs since with
  | .error e => .error e
  | .ok release_info =>
    .ok (hideUnreleased include_unreleased_commits
      (buildRepoInfo now release_info include_commits))

/-! ### The two window strategies over a linear history

`_get_repository_info_v4` materializes windows per adjacent release
pair through the compare endpoint; `_get_repository_info_v3` walks the
default-branch history once.  To compare them, the compare endpoint is
instantiated on an explicit linear history (newest first), which is the
snapshot both functions consume. -/

/-- Resolved release: tag name plus the commit hash the tag ultimately
points to (`_get_tag_target` on the raw tag). -/
structure Release where
  tag : String
  sha : String
deriving DecidableEq, Repr

/-- Resolution of a raw release used by the v4 builder (packages.py
line 616). -/
def resolveRelease (r : RawRelease) : Release :=
  ⟨r.tagName, (get_tag_target r.tag).1⟩

/-- The GitHub compare endpoint on a linear history `hist` (newest
first): commits reachable from `headSha` but not from `baseSha`, i.e.
the segment from the head commit (inclusive) down to the base commit
(exclusive), returned oldest first as the endpoint does. -/
def linearCompare (hist : List Commit) (baseSha headSha : String) : List Commit :=
  ((hist.dropWhile (fun c => c.oid != headSha)).takeWhile (fun c => c.oid != baseSha)).reverse

/-- Window contents produced by the per-pair strategy of
`_get_repository_info_v4` (lines 642-656 and 670-689), with the compare
endpoint instantiated on the linear history: the synthetic unreleased
window first (all commits when there is no release, otherwise the
compare range from the latest release to the branch tip), then one
window per adjacent pair `zip(releases[1:], releases[:-1])`, labelled by
the newer release.  Each window records the commit range the source
feeds to `_pr_commits` for it (`rel_commits`). -/
def pairWindows (hist : List Commit) (rels : List Release) : List (String × List Commit) :=
  let unreleased : String × List Commit :=
    match rels with
    | [] => ("", hist)
    | r0 :: _ => ("", (hist.takeWhile (fun c => c.oid != r0.sha)).reverse)
  unreleased :: (rels.tail.zip rels).map (fun p => (p.2.tag, linearCompare hist p.1.sha p.2.sha))

/-- Append a commit to the last open window
(`release_info[-1]["commits"].append(...)` in the v3 walk). -/
def appendToLast : List (String × List Commit) → Commit → List (String × List Commit)
  | [], _ => []
  | [w], c => [(w.1, w.2 ++ [c])]
  | w :: ws, c => w :: appendToLast ws c

/-- Loop of the v3 walk (packages.py lines 941-965, restricted to the
window structure): for each commit, newest first, open a window for
every release resolving to that commit, then append the commit to the
last window. -/
def walkLoop (rels : List Release) : List (String × List Commit) → List Commit → List (String × List Commit)
  | acc, [] => acc
  | acc, c :: cs =>
    let newWins := (rels.filter (fun r => r.sha == c.oid)).map (fun r => (r.tag, ([] : List Commit)))
    walkLoop rels (appendToLast (acc ++ newWins) c) cs

/-- Window contents produced by the single linear-history traversal of
`_get_repository_info_v3` on the full history: start from the synthetic
unreleased window and walk the commits newest first. -/
def walkWindows (hist : List Commit) (rels : List Release) : List (String × List Commit) :=
  walkLoop rels [("", [])] hist

/-- Closed form of the traversal on a coherent linear history: the
windows for `rels`, starting from the suffix of the history that begins
at the first release boundary. -/
def chopFrom : List Commit → List Release → List (String × List Commit)
  | _, [] => []
  | h, [r] => [(r.tag, h)]
  | h, r :: r2 :: rs =>
    (r.tag, h.takeWhile (fun c => c.oid != r2.sha)) ::
      chopFrom (h.dropWhile (fun c => c.oid != r2.sha)) (r2 :: rs)

/-- Closed form of the traversal windows: the unreleased prefix, then
the release windows. -/
def chopWindows (hist : List Commit) (rels : List Release) : List (String × List Commit) :=
  match rels with
  | [] => [("", hist)]
  | r :: _ =>
    ("", hist.takeWhile (fun c => c.oid != r.sha)) ::
      chopFrom (hist.dropWhile (fun c => c.oid != r.sha)) rels

/-- No commit of `cs` is the resolved commit of a release in `rs`. -/
def freeOf (cs : List Commit) (rs : List Release) : Bool :=
  cs.all (fun c => rs.all (fun r => c.oid != r.sha))

/-- Coherent linear repository state: the releases, ordered newest
first, resolve to commits that occur in the history in that order, each
exactly once, with pairwise distinct resolved commits. -/
def linearB : List Commit → List Release → Bool
  | _, [] => true
  | hist, r :: rs =>
    match hist.dropWhile (fun c => c.oid != r.sha) with
    | [] => false
    | _ :: rest =>
      freeOf (hist.takeWhile (fun c => c.oid != r.sha)) (r :: rs) &&
      rs.all (fun r2 => r.sha != r2.sha) &&
      rest.all (fun c => c.oid != r.sha) &&
      linearB rest rs

/-! ### Change summary (`repository_change_summary`,
skare3_update_summary.py lines 31-132) -/

/-- Slice of a repository info record read by the change summary:
owner, name, and the release windows. -/
structure RepoSummaryInfo where
  owner : String
  name : String
  release_info : List RelEntry
deriving DecidableEq, Repr

/-- Merge entry of an update, as rendered into the changelog. -/
structure MergeOut where
  PR : Nat
  url : String
  description : Option String
  author : String
deriving DecidableEq, Repr

/-- Update entry: the `versions` and `merges` keys are only added when
the repository info for the package is available. -/
structure UpdateEntry where
  name : String
  version_2 : String
  version_1 : String
  versions : Option (List String)
  merges : Option (List MergeOut)
deriving DecidableEq, Repr

/-- Entry of the `new` list. -/
structure NewEntry where
  name : String
  version : String
deriving DecidableEq, Repr

/-- The change summary returned by `repository_change_summary`. -/
structure ChangeSummary where
  updates : List UpdateEntry
  new : List NewEntry
  removed : List String
deriving DecidableEq, Repr

/-- A version manifest: package name to version string, unique keys (a
Python dict). -/
abbrev Manifest := List (String × String)

/-- Python `name in manifest`. -/
def hasKey (m : Manifest) (k : String) : Bool :=
  m.any (fun kv => kv.1 == k)

/-- Python `manifest[name]` under a membership guard (manifest keys are
unique, so the first binding is the binding). -/
def getKey (m : Manifest) (k : String) : String :=
  ((m.find? (fun kv => kv.1 == k)).map (fun kv => kv.2)).getD ""

/-- Lookup in an association list with Python dict-comprehension
semantics: a later binding for the same key overwrites an earlier
one. -/
def lastLookup (l : List (String × β)) (k : String) : Option β :=
  (l.reverse.find? (fun kv => kv.1 == k)).map (fun kv => kv.2)

/-- Per-package body of the summary loop (skare3_update_summary.py
lines 66-126).  Parameters standing for external collaborators:
`p2r` is the package-to-repository map from `get_package_list`,
`fetchWider` is `get_repository_info(full_name, since=100)`, `clean` is
`_clean_version` (a `packaging` version normalization).  Python
`list.index` raises `ValueError` when the sought version is absent,
modelled by the error result. -/
def summaryStep (p2r : String → Option String) (fetchWider : String → RepoSummaryInfo)
    (clean : String → String) (pkgsMap : String → Option RepoSummaryInfo)
    (initialV finalV : Manifest) (s : ChangeSummary) (name : String) :
    Except String ChangeSummary :=
  if !(hasKey initialV name) then
    .ok { s with new := s.new ++ [⟨name, getKey finalV name⟩] }
  else if !(hasKey finalV name) then
    .ok { s with removed := s.removed ++ [name] }
  else
    let v1 := getKey initialV name
    let v2 := getKey finalV name
    if v2 != "" && v2 != v1 then
      let ui0 : UpdateEntry := ⟨name, v2, v1, Option.none, Option.none⟩
      match p2r name with
      | Option.none => .ok { s with updates := s.updates ++ [ui0] }
      | some full =>
        match pkgsMap full with
        | Option.none => .ok { s with updates := s.updates ++ [ui0] }
        | some p0 =>
          let rel0 := p0.release_info.map (fun r => clean r.release_tag)
          let widened :=
            if rel0.contains v1 then (p0, rel0)
            else
              let p1 := fetchWider full
              (p1, p1.release_info.map (fun r => clean r.release_tag))
          let p := widened.1
          let releases := widened.2
          if releases.length == 1 && releases.headD "?" == "" then
            .ok s
          else if !(releases.contains v2) then
            .error "ValueError: x is not in list"
          else
            let releases2 :=
              if releases.contains v1 && v1 != "" then
                (releases.drop (releases.indexOf v2)).take
                  (releases.indexOf v1 - releases.indexOf v2)
              else releases.drop (releases.indexOf v2)
            let relMap := fun k =>
              ((p.release_info.reverse.find? (fun r => clean r.release_tag == k)).map
                (fun r => r.merges)).getD []
            let mergesIn := (releases2.map relMap).flatten
            let mergesOut := mergesIn.map (fun m =>
              let url :=
                if m.pr_number != 0 then
                  p.owner ++ "/" ++ p.name ++ "/pull/" ++ toString m.pr_number
                else ""
              (⟨m.pr_number, url, m.title, m.author⟩ : MergeOut))
            let ui : UpdateEntry :=
              ⟨name, v2, v1, some (v1 :: releases2.reverse), some mergesOut.reverse⟩
            .ok { s with updates := s.updates ++ [ui] }
    else .ok s

/-- The summary loop over the merged, deduplicated, sorted package
names. -/
def summaryLoop (p2r : String → Option String) (fetchWider : String → RepoSummaryInfo)
    (clean : String → String) (pkgsMap : String → Option RepoSummaryInfo)
    (initialV finalV : Manifest) : List String → ChangeSummary → Except String ChangeSummary
  | [], s => .ok s
  | n :: ns, s =>
    match summaryStep p2r fetchWider clean pkgsMap initialV finalV s n with
    | .error e => .error e
    | .ok s2 => summaryLoop p2r fetchWider clean pkgsMap initialV finalV ns s2

/-- Translation of `repository_change_summary`: iterate over
`sorted(set(final keys + initial keys))`, then sort `removed`
alphabetically and `new`/`updates` case-insensitively by name (Python
`sorted` with a key is stable, as is `List.insertionSort`). -/
def repository_change_summary (p2r : String → Option String)
    (fetchWider : String → RepoSummaryInfo) (clean : String → String)
    (pkgs_repo_info : List RepoSummaryInfo) (initialV finalV : Manifest) :
    Except String ChangeSummary :=
  let pkgsMap := fun k =>
    lastLookup (pkgs_repo_info.map (fun p => (p.owner ++ "/" ++ p.name, p))) k
  let names :=
    ((finalV.map Prod.fst ++ initialV.map Prod.fst).dedup).insertionSort (fun a b => a ≤ b)
  match summaryLoop p2r fetchWider clean pkgsMap initialV finalV names ⟨[], [], []⟩ with
  | .error e => .error e
  | .ok s =>
    .ok ⟨s.updates.insertionSort (fun a b => a.name.toLower ≤ b.name.toLower),
         s.new.insertionSort (fun a b => a.name.toLower ≤ b.name.toLower),
         s.removed.insertionSort (fun a b => a ≤ b)⟩

/-- Window tags kept by the `since=T` partition according to the claim
wording (not the source): the windows for releases whose parsed version
is strictly greater than the version of `T`. -/
def specKeptTags (ver : String → Option Nat) (rels : List RawRelease) (T : String) :
    List String :=
  ((qualifying ver rels).filter (fun r => (ver T).getD 0 < verKey ver r)).map
    (fun r => r.tagName)

/-! ## Theorems -/

/-- C9: resolving a tag reference that is directly a commit node returns
that commit hash (and date) unchanged, and resolving a chain returns the
same result as starting the resolution from any intermediate link. -/
theorem c9_tag_resolution :
    (∀ oid date, get_tag_target (TagNode.commit oid date) = (oid, date)) ∧
    (∀ t u, Unwraps t u → get_tag_target t = get_tag_target u) := by
  constructor
  · intro oid date
    rfl
  · intro t u h
    induction h with
    | refl t => rfl
    | step t u h ih => simpa [get_tag_target] using ih

/-- Witness for C9 at a three-level tag chain. -/
theorem c9_tag_resolution_witness :
    get_tag_target (TagNode.commit "a1b2" "2024-01-01") = ("a1b2", "2024-01-01") ∧
    get_tag_target (TagNode.tag (TagNode.tag (TagNode.commit "a1b2" "2024-01-01"))) =
      get_tag_target (TagNode.tag (TagNode.commit "a1b2" "2024-01-01")) :=
  ⟨c9_tag_resolution.1 "a1b2" "2024-01-01",
   c9_tag_resolution.2 _ _ (Unwraps.step _ _ (Unwraps.refl _))⟩

/-- C5: with five default-branch commits and no qualifying release, the
partition produces exactly one window, the synthetic unreleased one,
and its commit range is the whole history. -/
theorem c5_no_releases (ver : String → Option Nat) (hist : List Commit)
    (rels : List RawRelease) (hq : qualifying ver rels = []) (hlen : hist.length = 5) :
    pairWindows hist ((qualifying ver rels).map resolveRelease) = [("", hist)] ∧
    (pairWindows hist ((qualifying ver rels).map resolveRelease)).length = 1 ∧
    ((pairWindows hist ((qualifying ver rels).map resolveRelease)).headD ("", [])).2.length = 5 := by
  rw [hq]
  exact ⟨rfl, rfl, by simpa using hlen⟩

/-- Witness for C5: a five-commit history and a single draft release,
which does not qualify. -/
theorem c5_no_releases_witness :
    pairWindows
        [⟨"c5", "m5"⟩, ⟨"c4", "m4"⟩, ⟨"c3", "m3"⟩, ⟨"c2", "m2"⟩, ⟨"c1", "m1"⟩]
        ((qualifying (fun _ => some 1)
          [⟨"1.0", true, false, TagNode.commit "c3" "d", "p"⟩]).map resolveRelease) =
      [("", [⟨"c5", "m5"⟩, ⟨"c4", "m4"⟩, ⟨"c3", "m3"⟩, ⟨"c2", "m2"⟩, ⟨"c1", "m1"⟩])] ∧
    (pairWindows
        [⟨"c5", "m5"⟩, ⟨"c4", "m4"⟩, ⟨"c3", "m3"⟩, ⟨"c2", "m2"⟩, ⟨"c1", "m1"⟩]
        ((qualifying (fun _ => some 1)
          [⟨"1.0", true, false, TagNode.commit "c3" "d", "p"⟩]).map resolveRelease)).length = 1 ∧
    ((pairWindows
        [⟨"c5", "m5"⟩, ⟨"c4", "m4"⟩, ⟨"c3", "m3"⟩, ⟨"c2", "m2"⟩, ⟨"c1", "m1"⟩]
        ((qualifying (fun _ => some 1)
          [⟨"1.0", true, false, TagNode.commit "c3" "d", "p"⟩]).map resolveRelease)).headD
        ("", [])).2.length = 5 :=
  c5_no_releases (fun _ => some 1) _ _ (by decide) (by decide)

/-- Accumulated nodes returned by the pagination loop on a well-behaved
continuation. -/
theorem getAllNodesLoop_collects (f : String → Page α) {c : String} {rest : List α} {n : Nat}
    (h : Collects f c rest n) :
    ∀ fuel acc, n ≤ fuel → getAllNodesLoop f fuel c (f c) acc = .ok (acc ++ rest) := by
  induction h with
  | done c hdone =>
    intro fuel acc _
    unfold getAllNodesLoop
    simp [hdone]
  | step c rest n hMore hNe hErr hColl ih =>
    intro fuel acc hfuel
    unfold getAllNodesLoop
    rw [hMore]
    simp only [if_true]
    have hne2 : ¬ (c = (f c).nextCursor) := fun hcontra => hNe hcontra.symm
    rw [if_neg hne2]
    match fuel, hfuel with
    | fuel + 1, hfuel =>
      simp only
      rw [hErr]
      rw [ih fuel (acc ++ (f (f c).nextCursor).nodes) (Nat.le_of_succ_le_succ hfuel)]
      simp [List.append_assoc]

/-- C2: on a finite, well-behaved source the pagination traversal
returns all nodes exactly once in fetch order (the concatenation of the
pages); on a source reporting more results with an unchanged cursor it
stops with the stalled-cursor error at once, for every fuel bound, that
is, it never loops. -/
theorem c2_pagination (f : String → Page α) (c : String) (fuel : Nat) :
    (∀ rest n, (f c).errors = none → Collects f c rest n → n ≤ fuel →
      get_all_nodes f fuel c = .ok ((f c).nodes ++ rest)) ∧
    ((f c).errors = none → (f c).hasMore = true → (f c).nextCursor = c →
      get_all_nodes f fuel c = .error stalledMsg) := by
  constructor
  · intro rest n hErr hColl hfuel
    show (match (f c).errors with
      | some msg => Except.error msg
      | none => getAllNodesLoop f fuel c (f c) (f c).nodes) = Except.ok ((f c).nodes ++ rest)
    rw [hErr]
    exact getAllNodesLoop_collects f hColl fuel (f c).nodes hfuel
  · intro hErr hMore hStall
    show (match (f c).errors with
      | some msg => Except.error msg
      | none => getAllNodesLoop f fuel c (f c) (f c).nodes) = Except.error stalledMsg
    rw [hErr]
    unfold getAllNodesLoop
    rw [hMore]
    simp [hStall]

/-- Witness for C2: a two-page source traversed completely, and a
stalled source rejected. -/
theorem c2_pagination_witness :
    get_all_nodes
        (fun s => if s = "p0" then ({ nodes := ["a1", "a2"], hasMore := true, nextCursor := "p1" } : Page String)
                  else { nodes := ["b1"], hasMore := false, nextCursor := "" })
        1 "p0" = .ok ["a1", "a2", "b1"] ∧
    get_all_nodes
        (fun _ => ({ nodes := ["x"], hasMore := true, nextCursor := "q0" } : Page String))
        5 "q0" = .error stalledMsg := by
  constructor
  · exact
      (c2_pagination
        (fun s => if s = "p0" then ({ nodes := ["a1", "a2"], hasMore := true, nextCursor := "p1" } : Page String)
                  else { nodes := ["b1"], hasMore := false, nextCursor := "" })
        "p0" 1).1 ["b1"] 1 rfl
        (Collects.step "p0" [] 0 rfl (by decide) rfl (Collects.done "p1" rfl))
        (by decide)
  · exact
      (c2_pagination
        (fun _ => ({ nodes := ["x"], hasMore := true, nextCursor := "q0" } : Page String))
        "q0" 5).2 rfl rfl rfl

/-- Unfolding equation for one step of the `_pr_commits` loop. -/
theorem prCommitsLoop_cons (prs : List PullRequest) (c : Commit) (cs : List Commit)
    (acc : List Merge) :
    prCommitsLoop prs (c :: cs) acc =
      match pullsVHash prs c.oid with
      | some pr =>
        prCommitsLoop prs cs (acc ++ [⟨pr.number, some pr.title, pr.headRefName, pr.authorName⟩])
      | none =>
        match matchMergeMessage c.message with
        | some mm =>
          match mm.prNumberStr.toNat? with
          | some n => prCommitsLoop prs cs (acc ++ [⟨n, mm.title, mm.branch, "Unknown"⟩])
          | none => .error "invalid literal for int() with base 10"
        | none => prCommitsLoop prs cs acc := rfl

/-- Accumulator shift for the `_pr_commits` loop: the accumulator is
only ever extended on the right. -/
theorem prCommitsLoop_shift (prs : List PullRequest) :
    ∀ (cs : List Commit) (acc : List Merge),
      prCommitsLoop prs cs acc = (prCommitsLoop prs cs []).map (fun l => acc ++ l) := by
  intro cs
  induction cs with
  | nil =>
    intro acc
    simp [prCommitsLoop, Except.map]
  | cons c cs ih =>
    intro acc
    rw [prCommitsLoop_cons, prCommitsLoop_cons]
    cases h1 : pullsVHash prs c.oid with
    | some pr =>
      simp only
      conv_lhs => rw [ih]
      conv_rhs => rw [ih]
      cases prCommitsLoop prs cs [] with
      | error e => simp [Except.map]
      | ok l => simp [Except.map]
    | none =>
      simp only
      cases h2 : matchMergeMessage c.message with
      | some mm =>
        simp only
        cases h3 : mm.prNumberStr.toNat? with
        | some nn =>
          simp only
          conv_lhs => rw [ih]
          conv_rhs => rw [ih]
          cases prCommitsLoop prs cs [] with
          | error e => simp [Except.map]
          | ok l => simp [Except.map]
        | none => simp [Except.map]
      | none =>
        exact ih acc

/-- Appending commit lists appends the attributed merges, for any
starting accumulator. -/
theorem prCommitsLoop_append (prs : List PullRequest) (cs2 : List Commit) :
    ∀ (cs1 : List Commit) (acc : List Merge),
      prCommitsLoop prs (cs1 ++ cs2) acc =
        (prCommitsLoop prs cs1 acc).bind
          (fun a => (prCommitsLoop prs cs2 []).map (fun b => a ++ b)) := by
  intro cs1
  induction cs1 with
  | nil =>
    intro acc
    show prCommitsLoop prs cs2 acc = (Except.ok acc).bind _
    rw [prCommitsLoop_shift]
    cases prCommitsLoop prs cs2 [] with
    | error e => simp [Except.map, Except.bind]
    | ok l => simp [Except.map, Except.bind]
  | cons c cs ih =>
    intro acc
    rw [List.cons_append, prCommitsLoop_cons, prCommitsLoop_cons]
    cases h1 : pullsVHash prs c.oid with
    | some pr => exact ih _
    | none =>
      simp only
      cases h2 : matchMergeMessage c.message with
      | some mm =>
        simp only
        cases h3 : mm.prNumberStr.toNat? with
        | some nn => exact ih _
        | none => simp [Except.bind]
      | none => exact ih acc

/-- C6 (amended): the merge attributor emits merges in commit
processing order — attributing a concatenation of commit lists yields
the concatenation of their merge lists in the same order, with no
reversal; the newest-first presentation is produced downstream by the
changelog differ, which reverses the concatenated merges. -/
theorem c6_merge_order (prs : List PullRequest) (cs1 cs2 : List Commit) :
    pr_commits (cs1 ++ cs2) prs =
      (pr_commits cs1 prs).bind (fun a => (pr_commits cs2 prs).map (fun b => a ++ b)) :=
  prCommitsLoop_append prs cs2 cs1 []

/-- Counterexample for C6 as stated: two merge commits, both resolved
through the hash index, come back in processing order, not reversed. -/
theorem c6_counterexample :
    pr_commits [⟨"h1", "first"⟩, ⟨"h2", "second"⟩]
        [⟨1, "T1", some "h1", "b1", "A1"⟩, ⟨2, "T2", some "h2", "b2", "A2"⟩] =
      .ok [⟨1, some "T1", "b1", "A1"⟩, ⟨2, some "T2", "b2", "A2"⟩] ∧
    ([⟨1, some "T1", "b1", "A1"⟩, ⟨2, some "T2", "b2", "A2"⟩] : List Merge) ≠
      [⟨2, some "T2", "b2", "A2"⟩, ⟨1, some "T1", "b1", "A1"⟩] := by
  constructor
  · rfl
  · decide

/-- On identical manifests every merged package name is a key of the
manifest, and the summary loop leaves the summary unchanged. -/
theorem summaryLoop_id (p2r : String → Option String) (fw : String → RepoSummaryInfo)
    (clean : String → String) (pm : String → Option RepoSummaryInfo) (M : Manifest) :
    ∀ (ns : List String) (s : ChangeSummary), (∀ n ∈ ns, hasKey M n = true) →
      summaryLoop p2r fw clean pm M M ns s = .ok s := by
  intro ns
  induction ns with
  | nil => intro s _; rfl
  | cons n ns ih =>
    intro s hmem
    have hk : hasKey M n = true := hmem n (by simp)
    have hstep : summaryStep p2r fw clean pm M M s n = .ok s := by
      simp [summaryStep, hk]
    unfold summaryLoop
    rw [hstep]
    exact ih s (fun m hm => hmem m (by simp [hm]))

/-- C8: diffing a manifest against itself yields the empty change
summary, for every manifest and any repository info. -/
theorem c8_diff_noop (p2r : String → Option String) (fw : String → RepoSummaryInfo)
    (clean : String → String) (pkgs : List RepoSummaryInfo) (M : Manifest) :
    repository_change_summary p2r fw clean pkgs M M = .ok ⟨[], [], []⟩ := by
  have hmem : ∀ n ∈ ((M.map Prod.fst ++ M.map Prod.fst).dedup).insertionSort
      (fun a b => a ≤ b), hasKey M n = true := by
    intro n hn
    rw [List.mem_insertionSort, List.mem_dedup] at hn
    have hn2 : n ∈ M.map Prod.fst := by
      rcases List.mem_append.mp hn with h | h <;> exact h
    obtain ⟨kv, hkv, hfst⟩ := List.mem_map.mp hn2
    exact List.any_eq_true.mpr ⟨kv, hkv, by simp [hfst]⟩
  simp only [repository_change_summary]
  rw [summaryLoop_id _ _ _ _ M _ _ hmem]
  rfl

/-- Shape of a successful summary step: it leaves the summary unchanged
or appends exactly one entry, named after the processed package. -/
theorem summaryStep_shape {p2r : String → Option String} {fw : String → RepoSummaryInfo}
    {clean : String → String} {pm : String → Option RepoSummaryInfo}
    {iV fV : Manifest} {s : ChangeSummary} {n : String} {s2 : ChangeSummary}
    (h : summaryStep p2r fw clean pm iV fV s n = .ok s2) :
    s2 = s ∨
    (∃ v, s2 = { s with new := s.new ++ [⟨n, v⟩] }) ∨
    s2 = { s with removed := s.removed ++ [n] } ∨
    (∃ e : UpdateEntry, e.name = n ∧ s2 = { s with updates := s.updates ++ [e] }) := by
  simp only [summaryStep] at h
  split at h
  · injection h with h
    exact Or.inr (Or.inl ⟨_, h.symm⟩)
  · split at h
    · injection h with h
      exact Or.inr (Or.inr (Or.inl h.symm))
    · split at h
      · split at h
        · injection h with h
          exact Or.inr (Or.inr (Or.inr ⟨_, rfl, h.symm⟩))
        · split at h
          · injection h with h
            exact Or.inr (Or.inr (Or.inr ⟨_, rfl, h.symm⟩))
          · split at h
            · split at h
              · injection h with h
                exact Or.inl h.symm
              · split at h
                · exact Except.noConfusion h
                · injection h with h
                  exact Or.inr (Or.inr (Or.inr ⟨_, rfl, h.symm⟩))
            · split at h
              · injection h with h
                exact Or.inl h.symm
              · split at h
                · exact Except.noConfusion h
                · injection h with h
                  exact Or.inr (Or.inr (Or.inr ⟨_, rfl, h.symm⟩))
      · injection h with h
        exact Or.inl h.symm

/-- A package present in both manifests whose final version is the
empty string contributes nothing: the update condition is false. -/
theorem summaryStep_falsy (p2r : String → Option String) (fw : String → RepoSummaryInfo)
    (clean : String → String) (pm : String → Option RepoSummaryInfo)
    (iV fV : Manifest) (s : ChangeSummary) (n : String)
    (h1 : hasKey iV n = true) (h2 : hasKey fV n = true) (h3 : getKey fV n = "") :
    summaryStep p2r fw clean pm iV fV s n = .ok s := by
  simp [summaryStep, h1, h2, h3]

/-- The summary loop never produces an entry named after a package that
is present in both manifests with an empty final version. -/
theorem summaryLoop_noEntry {p2r : String → Option String} {fw : String → RepoSummaryInfo}
    {clean : String → String} {pm : String → Option RepoSummaryInfo}
    {iV fV : Manifest} {n0 : String}
    (h1 : hasKey iV n0 = true) (h2 : hasKey fV n0 = true) (h3 : getKey fV n0 = "") :
    ∀ (ns : List String) (s s2 : ChangeSummary),
      summaryLoop p2r fw clean pm iV fV ns s = .ok s2 →
      (n0 ∉ s.removed ∧ (∀ e ∈ s.new, e.name ≠ n0) ∧ (∀ e ∈ s.updates, e.name ≠ n0)) →
      (n0 ∉ s2.removed ∧ (∀ e ∈ s2.new, e.name ≠ n0) ∧ (∀ e ∈ s2.updates, e.name ≠ n0)) := by
  intro ns
  induction ns with
  | nil =>
    intro s s2 h hs
    injection h with h
    exact h ▸ hs
  | cons n ns ih =>
    intro s s2 h hs
    unfold summaryLoop at h
    split at h
    · exact Except.noConfusion h
    · rename_i s1 hstep
      by_cases hn : n = n0
      · subst hn
        have hid := summaryStep_falsy p2r fw clean pm iV fV s n h1 h2 h3
        rw [hstep] at hid
        injection hid with hid
        exact ih s1 s2 h (hid ▸ hs)
      · have hshape := summaryStep_shape hstep
        have hs1 : n0 ∉ s1.removed ∧ (∀ e ∈ s1.new, e.name ≠ n0) ∧
            (∀ e ∈ s1.updates, e.name ≠ n0) := by
          obtain ⟨hr, hnew, hupd⟩ := hs
          rcases hshape with rfl | ⟨v, rfl⟩ | rfl | ⟨e, hen, rfl⟩
          · exact ⟨hr, hnew, hupd⟩
          · refine ⟨hr, ?_, hupd⟩
            intro e he
            rcases List.mem_append.mp he with hmem | hmem
            · exact hnew e hmem
            · simp only [List.mem_singleton] at hmem
              subst hmem
              exact hn
          · refine ⟨?_, hnew, hupd⟩
            intro hmem
            rcases List.mem_append.mp hmem with hmem | hmem
            · exact hr hmem
            · simp only [List.mem_singleton] at hmem
              exact hn hmem.symm
          · refine ⟨hr, hnew, ?_⟩
            intro e2 he2
            rcases List.mem_append.mp he2 with hmem | hmem
            · exact hupd e2 hmem
            · simp only [List.mem_singleton] at hmem
              subst hmem
              rw [hen]
              exact hn
        exact ih s1 s2 h hs1

/-- C7 (amended): a package present in both manifests whose version in
the final manifest is the empty (falsy) string yields no entry at all in
the change summary — it is neither removed, nor new, nor an update;
removed entries arise only for packages absent from the final
manifest. -/
theorem c7_falsy_final (p2r : String → Option String) (fw : String → RepoSummaryInfo)
    (clean : String → String) (pkgs : List RepoSummaryInfo) (iV fV : Manifest)
    (n0 : String) (out : ChangeSummary)
    (h1 : hasKey iV n0 = true) (h2 : hasKey fV n0 = true) (h3 : getKey fV n0 = "")
    (h : repository_change_summary p2r fw clean pkgs iV fV = .ok out) :
    n0 ∉ out.removed ∧ (∀ e ∈ out.new, e.name ≠ n0) ∧ (∀ e ∈ out.updates, e.name ≠ n0) := by
  simp only [repository_change_summary] at h
  split at h
  · exact Except.noConfusion h
  · rename_i s hloop
    injection h with h
    have hinv := summaryLoop_noEntry h1 h2 h3 _ _ _ hloop
      (by exact ⟨by simp, by simp, by simp⟩)
    obtain ⟨hr, hnew, hupd⟩ := hinv
    subst h
    refine ⟨?_, ?_, ?_⟩
    · intro hmem
      exact hr (by simpa using (List.mem_insertionSort _).mp hmem)
    · intro e he
      exact hnew e ((List.mem_insertionSort _).mp he)
    · intro e he
      exact hupd e ((List.mem_insertionSort _).mp he)

/-- Counterexample for C7 as stated: package A is present in both
manifests with final version "" (falsy), yet the summary contains no
removed entry for it. -/
theorem c7_counterexample :
    ¬ (∀ s, repository_change_summary (fun _ => Option.none) (fun _ => ⟨"o", "n", []⟩)
        (fun v => v) [] [("A", "1.0")] [("A", "")] = Except.ok s → "A" ∈ s.removed) := by
  intro hclaim
  have h := hclaim ⟨[], [], []⟩ (by rfl)
  simp at h

/-- Witness for C7 (amended) at the counterexample input. -/
theorem c7_falsy_final_witness :
    "A" ∉ (ChangeSummary.mk [] [] []).removed ∧
    (∀ e ∈ (ChangeSummary.mk [] [] []).new, e.name ≠ "A") ∧
    (∀ e ∈ (ChangeSummary.mk [] [] []).updates, e.name ≠ "A") :=
  c7_falsy_final (fun _ => Option.none) (fun _ => ⟨"o", "n", []⟩) (fun v => v) []
    [("A", "1.0")] [("A", "")] "A" ⟨[], [], []⟩ (by rfl) (by rfl) (by rfl) (by rfl)

/-- Head shape of a successful window build: the first entry is always
the synthetic unreleased window. -/
theorem releaseInfoV4_head (ver : String → Option Nat) (compare : String → String → List Commit)
    (now db : String) (hist : List Commit) (rels : List RawRelease) (prs : List PullRequest)
    (since : SinceArg) (l : List RelEntry)
    (h : releaseInfoV4 ver compare now db hist rels prs since = .ok l) :
    ∃ relPrs t, l = (⟨"", "", Option.none, now, some [], relPrs⟩ : RelEntry) :: t := by
  simp only [releaseInfoV4] at h
  split at h
  · exact Except.noConfusion h
  · split at h
    · exact Except.noConfusion h
    · split at h
      · exact Except.noConfusion h
      · injection h with h
        exact ⟨_, _, h.symm⟩

/-- Zeroing the unreleased counters does not change the window list. -/
theorem hideUnreleased_release_info (b : Bool) (info : RepoInfo) :
    (hideUnreleased b info).release_info = info.release_info := by
  unfold hideUnreleased
  split <;> rfl

/-- With `include_unreleased_commits=True` nothing is zeroed. -/
theorem hideUnreleased_true (info : RepoInfo) : hideUnreleased true info = info := by
  unfold hideUnreleased
  simp

/-- C10: with `include_unreleased_commits` false and a single window,
the top level reports zero commits and merges and an empty merge list,
while the computed merges of the unreleased window remain inside
`release_info[0]` — they equal the `merge_info` the builder returns
when the flag is set. -/
theorem c10_unreleased_hidden (ver : String → Option Nat)
    (compare : String → String → List Commit) (now db : String) (hist : List Commit)
    (rels : List RawRelease) (prs : List PullRequest) (since : SinceArg) (ic : Bool)
    (info info2 : RepoInfo)
    (hfalse : getRepositoryInfoV4 ver compare now db hist rels prs since false ic = .ok info)
    (htrue : getRepositoryInfoV4 ver compare now db hist rels prs since true ic = .ok info2)
    (hlen : info.release_info.length = 1) :
    info.commits = 0 ∧ info.merges = 0 ∧ info.merge_info = [] ∧
    info.release_info = info2.release_info ∧
    info2.merge_info =
      (info.release_info.headD ⟨"", "", Option.none, "", Option.none, []⟩).merges := by
  simp only [getRepositoryInfoV4] at hfalse htrue
  split at hfalse
  · exact Except.noConfusion hfalse
  · rename_i ri heq
    split at htrue
    · rename_i e heq2
      rw [heq] at heq2
      exact Except.noConfusion heq2
    · rename_i ri2 heq2
      rw [heq] at heq2
      injection heq2 with heq2
      subst heq2
      injection hfalse with hfalse
      injection htrue with htrue
      rw [hideUnreleased_true] at htrue
      subst hfalse
      subst htrue
      have hB : (buildRepoInfo now ri ic).release_info.length = 1 := by
        rw [← hideUnreleased_release_info false (buildRepoInfo now ri ic)]
        exact hlen
      have hhide : hideUnreleased false (buildRepoInfo now ri ic) =
          { buildRepoInfo now ri ic with commits := 0, merges := 0, merge_info := [] } := by
        simp [hideUnreleased, hB]
      rw [hhide]
      obtain ⟨relPrs, t, rfl⟩ :=
        releaseInfoV4_head ver compare now db hist rels prs since ri heq
      cases ic <;> exact ⟨rfl, rfl, rfl, rfl, rfl⟩

/-- Witness for C10: one commit whose merge is attributed to the
unreleased window; the default build hides it at top level, the
flag-set build exposes it, and the window itself keeps it. -/
theorem c10_unreleased_hidden_witness :
    (⟨"", "", 0, 0, [],
      [⟨"", "", Option.none, "NOW", some [], [⟨1, some "T", "b", "A"⟩]⟩]⟩ : RepoInfo).commits = 0 ∧
    (⟨"", "", 0, 0, [],
      [⟨"", "", Option.none, "NOW", some [], [⟨1, some "T", "b", "A"⟩]⟩]⟩ : RepoInfo).merges = 0 ∧
    (⟨"", "", 0, 0, [],
      [⟨"", "", Option.none, "NOW", some [], [⟨1, some "T", "b", "A"⟩]⟩]⟩ : RepoInfo).merge_info = [] ∧
    (⟨"", "", 0, 0, [],
      [⟨"", "", Option.none, "NOW", some [], [⟨1, some "T", "b", "A"⟩]⟩]⟩ : RepoInfo).release_info =
      (⟨"", "", 0, 1, [⟨1, some "T", "b", "A"⟩],
        [⟨"", "", Option.none, "NOW", some [], [⟨1, some "T", "b", "A"⟩]⟩]⟩ : RepoInfo).release_info ∧
    (⟨"", "", 0, 1, [⟨1, some "T", "b", "A"⟩],
      [⟨"", "", Option.none, "NOW", some [], [⟨1, some "T", "b", "A"⟩]⟩]⟩ : RepoInfo).merge_info =
      ((⟨"", "", 0, 0, [],
        [⟨"", "", Option.none, "NOW", some [], [⟨1, some "T", "b", "A"⟩]⟩]⟩ : RepoInfo).release_info.headD
        ⟨"", "", Option.none, "", Option.none, []⟩).merges :=
  c10_unreleased_hidden (fun _ => Option.none) (fun _ _ => []) "NOW" "master"
    [⟨"h1", "x"⟩] [] [⟨1, "T", some "h1", "b", "A"⟩] (SinceArg.int 7) true
    (⟨"", "", 0, 0, [],
      [⟨"", "", Option.none, "NOW", some [], [⟨1, some "T", "b", "A"⟩]⟩]⟩ : RepoInfo)
    (⟨"", "", 0, 1, [⟨1, some "T", "b", "A"⟩],
      [⟨"", "", Option.none, "NOW", some [], [⟨1, some "T", "b", "A"⟩]⟩]⟩ : RepoInfo)
    (by rfl) (by rfl) (by rfl)

/-- Mapping the second components of `l.tail.zip l` gives the list
without its last element: the pair heads of the window loop are exactly
`releases[:-1]`. -/
theorem zip_tail_snd {α : Type} : ∀ (l : List α), (l.tail.zip l).map Prod.snd = l.dropLast
  | [] => rfl
  | [_] => rfl
  | a :: b :: l => by
    have ih := zip_tail_snd (b :: l)
    simp only [List.tail_cons] at ih ⊢
    rw [List.zip_cons_cons, List.map_cons, ih]
    rfl

/-- The release list kept by `since` is a sublist of the ordered
qualifying releases. -/
theorem applySince_sublist (since : SinceArg) (q : List RawRelease) (tags : List String)
    (rl : List RawRelease) (h : applySince since q tags = .ok rl) : rl.Sublist q := by
  cases since with
  | int n =>
    simp only [applySince] at h
    injection h with h
    subst h
    exact List.take_sublist _ _
  | tag t =>
    simp only [applySince] at h
    split at h
    · injection h with h
      subst h
      exact List.take_sublist _ _
    · exact Except.noConfusion h
  | none =>
    simp only [applySince] at h
    injection h with h
    subst h
    exact List.Sublist.refl _

/-- The qualifying releases are sorted descending by parsed version
(weakly: ties keep fetch order). -/
theorem qualifying_sorted (ver : String → Option Nat) (rels : List RawRelease) :
    (qualifying ver rels).Sorted (fun a b => verKey ver b ≤ verKey ver a) := by
  haveI : IsTotal RawRelease (fun a b => verKey ver b ≤ verKey ver a) :=
    ⟨fun a b => Nat.le_total _ _⟩
  haveI : IsTrans RawRelease (fun a b => verKey ver b ≤ verKey ver a) :=
    ⟨fun _ _ _ hab hbc => Nat.le_trans hbc hab⟩
  exact List.sorted_insertionSort _ _

/-- A successful pair entry is labelled by the head release of the
pair. -/
theorem mkPairEntry_ok {compare : String → String → List Commit} {prs : List PullRequest}
    {base head : RawRelease} {e : RelEntry}
    (h : mkPairEntry compare prs base head = .ok e) : e.release_tag = head.tagName := by
  simp only [mkPairEntry] at h
  split at h
  · exact Except.noConfusion h
  · injection h with h
    subst h
    rfl

/-- The tags of the pair windows are the tags of the pair heads, in
order. -/
theorem pairEntriesLoop_tags (compare : String → String → List Commit)
    (prs : List PullRequest) :
    ∀ (ps : List (RawRelease × RawRelease)) (es : List RelEntry),
      pairEntriesLoop compare prs ps = .ok es →
      es.map (fun e => e.release_tag) = ps.map (fun p => p.2.tagName) := by
  intro ps
  induction ps with
  | nil =>
    intro es h
    injection h with h
    subst h
    rfl
  | cons p ps ih =>
    intro es h
    unfold pairEntriesLoop at h
    split at h
    · exact Except.noConfusion h
    · rename_i entry hentry
      split at h
      · exact Except.noConfusion h
      · rename_i rest hrest
        injection h with h
        subst h
        simp only [List.map_cons]
        rw [ih rest hrest, mkPairEntry_ok hentry]

/-- Decomposition of a successful window build into the `since`
selection, the pair loop, and the final sort. -/
theorem releaseInfoV4_ok_parts (ver : String → Option Nat)
    (compare : String → String → List Commit) (now db : String) (hist : List Commit)
    (rels : List RawRelease) (prs : List PullRequest) (since : SinceArg) (l : List RelEntry)
    (h : releaseInfoV4 ver compare now db hist rels prs since = .ok l) :
    ∃ releases rel_prs entries,
      applySince since (qualifying ver rels) ((qualifying ver rels).map (fun r => r.tagName)) =
        .ok releases ∧
      pairEntriesLoop compare prs (releases.tail.zip releases) = .ok entries ∧
      l = (⟨"", "", Option.none, now, some [], rel_prs⟩ : RelEntry) ::
        entries.insertionSort
          (fun a b => (ver b.release_tag).getD 0 ≤ (ver a.release_tag).getD 0) := by
  simp only [releaseInfoV4] at h
  split at h
  · exact Except.noConfusion h
  · rename_i releases heq1
    split at h
    · exact Except.noConfusion h
    · rename_i rel_prs heq2
      split at h
      · exact Except.noConfusion h
      · rename_i entries heq3
        injection h with h
        exact ⟨releases, rel_prs, entries, heq1, heq3, h.symm⟩

/-- C1 (amended): the first window is always the synthetic unreleased
one; every later window is labelled by a qualifying release tag, and
the later windows are ordered descending by parsed version — strictly
descending whenever no two qualifying releases parse to the same
version. -/
theorem c1_release_info_order (ver : String → Option Nat)
    (compare : String → String → List Commit) (now db : String) (hist : List Commit)
    (rels : List RawRelease) (prs : List PullRequest) (since : SinceArg) (l : List RelEntry)
    (h : releaseInfoV4 ver compare now db hist rels prs since = .ok l) :
    (∃ e0, l.head? = some e0 ∧ e0.release_tag = "") ∧
    (∀ e ∈ l.tail, e.release_tag ∈ (qualifying ver rels).map (fun r => r.tagName)) ∧
    l.tail.Pairwise (fun a b => (ver b.release_tag).getD 0 ≤ (ver a.release_tag).getD 0) ∧
    (((qualifying ver rels).map (verKey ver)).Nodup →
      l.tail.Pairwise (fun a b => (ver b.release_tag).getD 0 < (ver a.release_tag).getD 0)) := by
  obtain ⟨releases, rel_prs, entries, hsince, hentries, rfl⟩ :=
    releaseInfoV4_ok_parts ver compare now db hist rels prs since l h
  have hsub : releases.Sublist (qualifying ver rels) :=
    applySince_sublist _ _ _ _ hsince
  have hsubDrop : (releases.dropLast).Sublist (qualifying ver rels) :=
    (List.dropLast_sublist releases).trans hsub
  have htags : entries.map (fun e => e.release_tag) =
      (releases.dropLast).map (fun r => r.tagName) := by
    rw [pairEntriesLoop_tags compare prs _ _ hentries]
    rw [← zip_tail_snd releases, List.map_map]
    rfl
  haveI : IsTotal RelEntry
      (fun a b => (ver b.release_tag).getD 0 ≤ (ver a.release_tag).getD 0) :=
    ⟨fun a b => Nat.le_total _ _⟩
  haveI : IsTrans RelEntry
      (fun a b => (ver b.release_tag).getD 0 ≤ (ver a.release_tag).getD 0) :=
    ⟨fun _ _ _ hab hbc => Nat.le_trans hbc hab⟩
  refine ⟨⟨_, rfl, rfl⟩, ?_, ?_, ?_⟩
  · intro e he
    simp only [List.tail_cons, List.mem_insertionSort] at he
    have : e.release_tag ∈ entries.map (fun e => e.release_tag) :=
      List.mem_map.mpr ⟨e, he, rfl⟩
    rw [htags] at this
    exact ((List.Sublist.map (fun r => r.tagName) hsubDrop).subset) this
  · exact List.sorted_insertionSort _ entries
  · intro hk
    have hperm : (entries.insertionSort
        (fun a b => (ver b.release_tag).getD 0 ≤ (ver a.release_tag).getD 0)).Perm entries :=
      List.perm_insertionSort _ _
    have hkeysEntries : entries.map (fun e => (ver e.release_tag).getD 0) =
        (releases.dropLast).map (verKey ver) := by
      have : (fun e : RelEntry => (ver e.release_tag).getD 0) =
          (fun t => (ver t).getD 0) ∘ (fun e : RelEntry => e.release_tag) := rfl
      rw [this, ← List.map_map, htags, List.map_map]
      rfl
    have hnodupEntries : (entries.map (fun e => (ver e.release_tag).getD 0)).Nodup := by
      rw [hkeysEntries]
      exact List.Nodup.sublist (List.Sublist.map (verKey ver) hsubDrop) hk
    have hnodupSorted : ((entries.insertionSort
        (fun a b => (ver b.release_tag).getD 0 ≤ (ver a.release_tag).getD 0)).map
          (fun e => (ver e.release_tag).getD 0)).Nodup :=
      ((hperm.map (fun e => (ver e.release_tag).getD 0)).nodup_iff).mpr hnodupEntries
    have hne : (entries.insertionSort
        (fun a b => (ver b.release_tag).getD 0 ≤ (ver a.release_tag).getD 0)).Pairwise
          (fun a b => (ver a.release_tag).getD 0 ≠ (ver b.release_tag).getD 0) :=
      List.pairwise_map.mp hnodupSorted
    have hle : (entries.insertionSort
        (fun a b => (ver b.release_tag).getD 0 ≤ (ver a.release_tag).getD 0)).Pairwise
          (fun a b => (ver b.release_tag).getD 0 ≤ (ver a.release_tag).getD 0) :=
      List.sorted_insertionSort _ entries
    exact (hle.and hne).imp (fun hab => lt_of_le_of_ne hab.1 (Ne.symm hab.2))

/-- Counterexample for C1 as stated: two distinct qualifying tags
("1.0" and "1.0.0") parse to the same version, so the windows after
index 0 carry keys 10, 10 — descending but not strictly. -/
theorem c1_counterexample :
    (releaseInfoV4
        (fun s => if s = "2.0" then some 20 else if s = "1.0" then some 10
          else if s = "1.0.0" then some 10 else if s = "0.5" then some 5 else none)
        (fun _ _ => []) "NOW" "master" []
        [⟨"1.0", false, false, TagNode.commit "ca" "da", "pa"⟩,
         ⟨"1.0.0", false, false, TagNode.commit "cb" "db", "pb"⟩,
         ⟨"0.5", false, false, TagNode.commit "cc" "dc", "pc"⟩]
        [] (SinceArg.int 7)).map
      (fun l => l.tail.map (fun e =>
        ((fun s => if s = "2.0" then some 20 else if s = "1.0" then some 10
          else if s = "1.0.0" then some 10 else if s = "0.5" then some 5 else none)
            e.release_tag).getD 0)) = .ok [10, 10] ∧
    ¬ ([10, 10] : List Nat).Pairwise (fun a b => b < a) := by
  constructor
  · rfl
  · decide

/-- Witness for C1 (amended) at a repository with two distinct-version
releases. -/
theorem c1_release_info_order_witness :
    (∃ e0, ([(⟨"", "", Option.none, "NOW", some [], []⟩ : RelEntry),
      ⟨"2.0", "p2", some "c2", "d2", some [], []⟩] : List RelEntry).head? = some e0 ∧
        e0.release_tag = "") ∧
    (∀ e ∈ ([(⟨"", "", Option.none, "NOW", some [], []⟩ : RelEntry),
      ⟨"2.0", "p2", some "c2", "d2", some [], []⟩] : List RelEntry).tail,
        e.release_tag ∈ (qualifying
          (fun s => if s = "2.0" then some 20 else if s = "1.0" then some 10 else none)
          [⟨"1.0", false, false, TagNode.commit "c1" "d1", "p1"⟩,
           ⟨"2.0", false, false, TagNode.commit "c2" "d2", "p2"⟩]).map (fun r => r.tagName)) ∧
    ([(⟨"", "", Option.none, "NOW", some [], []⟩ : RelEntry),
      ⟨"2.0", "p2", some "c2", "d2", some [], []⟩] : List RelEntry).tail.Pairwise
        (fun a b => (((fun s => if s = "2.0" then some 20 else if s = "1.0" then some 10 else none))
            b.release_tag).getD 0 ≤
          (((fun s => if s = "2.0" then some 20 else if s = "1.0" then some 10 else none))
            a.release_tag).getD 0) ∧
    (((qualifying
        (fun s => if s = "2.0" then some 20 else if s = "1.0" then some 10 else none)
        [⟨"1.0", false, false, TagNode.commit "c1" "d1", "p1"⟩,
         ⟨"2.0", false, false, TagNode.commit "c2" "d2", "p2"⟩]).map
        (verKey (fun s => if s = "2.0" then some 20 else if s = "1.0" then some 10 else none))).Nodup →
      ([(⟨"", "", Option.none, "NOW", some [], []⟩ : RelEntry),
        ⟨"2.0", "p2", some "c2", "d2", some [], []⟩] : List RelEntry).tail.Pairwise
          (fun a b => (((fun s => if s = "2.0" then some 20 else if s = "1.0" then some 10 else none))
              b.release_tag).getD 0 <
            (((fun s => if s = "2.0" then some 20 else if s = "1.0" then some 10 else none))
              a.release_tag).getD 0)) :=
  c1_release_info_order
    (fun s => if s = "2.0" then some 20 else if s = "1.0" then some 10 else none)
    (fun _ _ => []) "NOW" "master" []
    [⟨"1.0", false, false, TagNode.commit "c1" "d1", "p1"⟩,
     ⟨"2.0", false, false, TagNode.commit "c2" "d2", "p2"⟩]
    [] (SinceArg.int 7)
    [(⟨"", "", Option.none, "NOW", some [], []⟩ : RelEntry),
      ⟨"2.0", "p2", some "c2", "d2", some [], []⟩]
    (by rfl)

/-- Tags of the pair windows are the tags of `releases[:-1]`. -/
theorem pairEntriesLoop_tags_dropLast (compare : String → String → List Commit)
    (prs : List PullRequest) (releases : List RawRelease) (entries : List RelEntry)
    (h : pairEntriesLoop compare prs (releases.tail.zip releases) = .ok entries) :
    entries.map (fun e => e.release_tag) = (releases.dropLast).map (fun r => r.tagName) := by
  rw [pairEntriesLoop_tags compare prs _ _ h, ← zip_tail_snd releases, List.map_map]
  rfl

/-- Sort keys of the pair windows are the sort keys of
`releases[:-1]`. -/
theorem pairEntriesLoop_keys_dropLast (ver : String → Option Nat)
    (compare : String → String → List Commit) (prs : List PullRequest)
    (releases : List RawRelease) (entries : List RelEntry)
    (h : pairEntriesLoop compare prs (releases.tail.zip releases) = .ok entries) :
    entries.map (fun e => (ver e.release_tag).getD 0) =
      (releases.dropLast).map (verKey ver) := by
  have h2 := pairEntriesLoop_tags_dropLast compare prs releases entries h
  have hfun : (fun e : RelEntry => (ver e.release_tag).getD 0) =
      (fun t => (ver t).getD 0) ∘ (fun e : RelEntry => e.release_tag) := rfl
  rw [hfun, ← List.map_map, h2, List.map_map]
  rfl

/-- Transport of descending sortedness along equal key lists. -/
theorem pairwise_of_map_eq {α β : Type} {keyA : α → Nat} {keyB : β → Nat}
    {la : List α} {lb : List β} (h : la.map keyA = lb.map keyB)
    (hp : lb.Pairwise (fun a b => keyB b ≤ keyB a)) :
    la.Pairwise (fun a b => keyA b ≤ keyA a) := by
  have h1 : (lb.map keyB).Pairwise (fun x y : Nat => y ≤ x) := List.pairwise_map.mpr hp
  rw [← h] at h1
  exact List.pairwise_map.mp h1

/-- The qualifying releases are strictly descending by parsed version
when no two of them share a parsed version. -/
theorem qualifying_sorted_strict (ver : String → Option Nat) (rels : List RawRelease)
    (hk : ((qualifying ver rels).map (verKey ver)).Nodup) :
    (qualifying ver rels).Pairwise (fun a b => verKey ver b < verKey ver a) := by
  have hle : (qualifying ver rels).Pairwise (fun a b => verKey ver b ≤ verKey ver a) :=
    qualifying_sorted ver rels
  have hne : (qualifying ver rels).Pairwise (fun a b => verKey ver a ≠ verKey ver b) :=
    List.pairwise_map.mp hk
  exact (hle.and hne).imp (fun h => lt_of_le_of_ne h.1 (Ne.symm h.2))

/-- On a strictly descending list, taking up to (and including) a pivot
is filtering by key at least the pivot key, and taking strictly before
the pivot is filtering by key above the pivot key. -/
theorem take_filter_strict {α : Type} (key : α → Nat) (l₁ l₂ : List α) (x : α)
    (hsorted : (l₁ ++ x :: l₂).Pairwise (fun a b => key b < key a)) :
    (l₁ ++ x :: l₂).take (l₁.length + 1) =
      (l₁ ++ x :: l₂).filter (fun y => key x ≤ key y) ∧
    (l₁ ++ x :: l₂).take l₁.length =
      (l₁ ++ x :: l₂).filter (fun y => key x < key y) := by
  obtain ⟨hp1, hp2, hcross⟩ := List.pairwise_append.mp hsorted
  have hx1 : ∀ y ∈ l₁, key x < key y :=
    fun y hy => hcross y hy x (List.mem_cons_self x l₂)
  have hx2 : ∀ z ∈ l₂, key z < key x :=
    fun z hz => List.rel_of_pairwise_cons hp2 hz
  constructor
  · rw [List.filter_append]
    have hf1 : l₁.filter (fun y => key x ≤ key y) = l₁ :=
      List.filter_eq_self.mpr (fun y hy => by simpa using Nat.le_of_lt (hx1 y hy))
    have hf0 : l₂.filter (fun y => key x ≤ key y) = [] :=
      List.filter_eq_nil_iff.mpr (fun z hz => by simpa using Nat.not_le.mpr (hx2 z hz))
    have hf2 : (x :: l₂).filter (fun y => key x ≤ key y) = [x] := by
      rw [List.filter_cons]
      simp [hf0]
    rw [hf1, hf2, @List.take_append _ l₁ (x :: l₂) 1]
    rfl
  · rw [List.filter_append]
    have hf1 : l₁.filter (fun y => key x < key y) = l₁ :=
      List.filter_eq_self.mpr (fun y hy => by simpa using hx1 y hy)
    have hf0 : l₂.filter (fun y => key x < key y) = [] :=
      List.filter_eq_nil_iff.mpr (fun z hz => by simpa using Nat.lt_asymm (hx2 z hz))
    have hf2 : (x :: l₂).filter (fun y => key x < key y) = [] := by
      rw [List.filter_cons]
      simp [hf0]
    rw [hf1, hf2, List.append_nil, List.take_left]

/-- Decomposition of a release list at the first occurrence of a tag
name present in it, with the position given by `indexOf` on the mapped
tag list. -/
theorem indexOf_map_tag_decomp : ∀ (q : List RawRelease) (T : String),
    T ∈ q.map (fun r => r.tagName) →
    ∃ l₁ r l₂, q = l₁ ++ r :: l₂ ∧ r.tagName = T ∧
      (q.map (fun r => r.tagName)).indexOf T = l₁.length := by
  intro q
  induction q with
  | nil =>
    intro T hT
    simp at hT
  | cons a q ih =>
    intro T hT
    by_cases ha : a.tagName = T
    · exact ⟨[], a, q, rfl, ha, by simp [List.indexOf_cons, ha]⟩
    · have hT2 : T ∈ q.map (fun r => r.tagName) := by
        simp only [List.map_cons, List.mem_cons] at hT
        rcases hT with h | h
        · exact absurd h.symm ha
        · exact h
      obtain ⟨l₁, r, l₂, hq, hr, hidx⟩ := ih T hT2
      refine ⟨a :: l₁, r, l₂, by rw [hq, List.cons_append], hr, ?_⟩
      simp only [List.map_cons, List.indexOf_cons]
      have hbe : (a.tagName == T) = false := by simp [ha]
      rw [hbe]
      simp [hidx]

/-- C3 (amended): partitioning with `since` set to a tag name T fails
with the unknown-tag error when T is not a qualifying release tag; when
T is known, the real windows kept are those of the first
`indexOf T + 2` releases except the last (the compare base), that is —
for distinct parsed versions — the releases with version at least the
version of T when an older release exists below T, and only those with
version strictly greater when T is the oldest fetched release. -/
theorem c3_since_partition (ver : String → Option Nat)
    (compare : String → String → List Commit) (now db : String) (hist : List Commit)
    (rels : List RawRelease) (prs : List PullRequest) (T : String) :
    (T ∉ (qualifying ver rels).map (fun r => r.tagName) →
      releaseInfoV4 ver compare now db hist rels prs (SinceArg.tag T) = .error sinceErrMsg) ∧
    (∀ l, releaseInfoV4 ver compare now db hist rels prs (SinceArg.tag T) = .ok l →
      l.tail.map (fun e => e.release_tag) =
        (((qualifying ver rels).map (fun r => r.tagName)).take
          ((((qualifying ver rels).map (fun r => r.tagName)).indexOf T) + 2)).dropLast) ∧
    (((qualifying ver rels).map (verKey ver)).Nodup →
      T ∈ (qualifying ver rels).map (fun r => r.tagName) →
      ∀ l, releaseInfoV4 ver compare now db hist rels prs (SinceArg.tag T) = .ok l →
        (((((qualifying ver rels).map (fun r => r.tagName)).indexOf T) + 2 ≤
            (qualifying ver rels).length →
          l.tail.map (fun e => e.release_tag) =
            ((qualifying ver rels).filter
              (fun r => (ver T).getD 0 ≤ verKey ver r)).map (fun r => r.tagName)) ∧
        ((qualifying ver rels).length ≤
            ((((qualifying ver rels).map (fun r => r.tagName)).indexOf T) + 1) →
          l.tail.map (fun e => e.release_tag) = specKeptTags ver rels T))) := by
  have hpart2 : ∀ l, releaseInfoV4 ver compare now db hist rels prs (SinceArg.tag T) = .ok l →
      l.tail.map (fun e => e.release_tag) =
        (((qualifying ver rels).map (fun r => r.tagName)).take
          ((((qualifying ver rels).map (fun r => r.tagName)).indexOf T) + 2)).dropLast := by
    intro l hl
    obtain ⟨releases, rel_prs, entries, hsince, hentries, rfl⟩ :=
      releaseInfoV4_ok_parts ver compare now db hist rels prs _ l hl
    simp only [applySince] at hsince
    split at hsince
    · injection hsince with hsince
      subst hsince
      have htags := pairEntriesLoop_tags_dropLast compare prs _ _ hentries
      have hkeys := pairEntriesLoop_keys_dropLast ver compare prs _ _ hentries
      have hsorted_rel : (((qualifying ver rels).take
          ((((qualifying ver rels).map (fun r => r.tagName)).indexOf T) + 2)).dropLast).Pairwise
            (fun a b => verKey ver b ≤ verKey ver a) :=
        List.Pairwise.sublist ((List.dropLast_sublist _).trans (List.take_sublist _ _))
          (qualifying_sorted ver rels)
      have hsorted_entries : entries.Pairwise
          (fun a b => (ver b.release_tag).getD 0 ≤ (ver a.release_tag).getD 0) :=
        pairwise_of_map_eq hkeys hsorted_rel
      rw [List.tail_cons, List.Sorted.insertionSort_eq hsorted_entries, htags,
        List.map_dropLast, List.map_take]
    · exact Except.noConfusion hsince
  refine ⟨?_, hpart2, ?_⟩
  · intro hT
    simp only [releaseInfoV4]
    have hc : ((qualifying ver rels).map (fun r => r.tagName)).contains T = false := by
      simp only [List.contains_eq_any_beq, List.any_eq_false]
      intro t ht
      simp only [beq_iff_eq]
      intro heq
      exact hT (heq ▸ ht)
    have happ : applySince (SinceArg.tag T) (qualifying ver rels)
        ((qualifying ver rels).map (fun r => r.tagName)) = .error sinceErrMsg := by
      show (if ((qualifying ver rels).map (fun r => r.tagName)).contains T = true then
          Except.ok (List.take
            (List.indexOf T ((qualifying ver rels).map (fun r => r.tagName)) + 2)
            (qualifying ver rels))
        else Except.error sinceErrMsg) = Except.error sinceErrMsg
      rw [hc]
      rfl
    rw [happ]
  · intro hk hT l hl
    have htail := hpart2 l hl
    obtain ⟨l₁, r, l₂, hq, hrT, hidx⟩ := indexOf_map_tag_decomp (qualifying ver rels) T hT
    have hstrict := qualifying_sorted_strict ver rels hk
    have hkey : verKey ver r = (ver T).getD 0 := by
      unfold verKey
      rw [hrT]
    constructor
    · intro hle
      rw [hidx] at htail hle
      rw [htail, ← List.map_take, ← List.map_dropLast]
      have hdt : ((qualifying ver rels).take (l₁.length + 2)).dropLast =
          (qualifying ver rels).take (l₁.length + 1) := by
        rw [List.dropLast_eq_take, List.length_take]
        rw [Nat.min_eq_left hle]
        rw [List.take_take]
        congr 1
        omega
      rw [hdt]
      have hfil := (take_filter_strict (verKey ver) l₁ l₂ r (hq ▸ hstrict)).1
      rw [hkey] at hfil
      rw [hq]
      exact congrArg (List.map (fun r => r.tagName)) hfil
    · intro hge
      rw [hidx] at htail hge
      rw [htail]
      have hlen : (qualifying ver rels).length = l₁.length + 1 + l₂.length := by
        rw [hq]
        simp
        omega
      have hl2 : l₂ = [] := by
        have : l₂.length = 0 := by omega
        exact List.length_eq_zero.mp this
      subst hl2
      have hfil := (take_filter_strict (verKey ver) l₁ [] r (hq ▸ hstrict)).2
      rw [hkey] at hfil
      have htake : ((qualifying ver rels).map (fun r => r.tagName)).take (l₁.length + 2) =
          (qualifying ver rels).map (fun r => r.tagName) := by
        apply List.take_of_length_le
        rw [List.length_map]
        omega
      rw [htake]
      rw [show specKeptTags ver rels T =
        ((qualifying ver rels).filter (fun r2 => (ver T).getD 0 < verKey ver r2)).map
          (fun r => r.tagName) from rfl]
      rw [← List.map_dropLast]
      have hdrop : (qualifying ver rels).dropLast = (qualifying ver rels).take l₁.length := by
        rw [List.dropLast_eq_take]
        congr 1
        omega
      rw [hdrop, hq]
      exact congrArg (List.map (fun r => r.tagName)) hfil

/-- Counterexample for C3 as stated: with releases 3.0 > 2.0 > 1.0 and
since tag T = "2.0", the build keeps the windows tagged 3.0 and 2.0 —
including the window of T itself — while the claim says only versions
strictly greater than 2.0 are kept. -/
theorem c3_counterexample :
    (releaseInfoV4
        (fun s => if s = "3.0" then some 30 else if s = "2.0" then some 20
          else if s = "1.0" then some 10 else none)
        (fun _ _ => []) "NOW" "master" []
        [⟨"1.0", false, false, TagNode.commit "c1" "d1", "p1"⟩,
         ⟨"3.0", false, false, TagNode.commit "c3" "d3", "p3"⟩,
         ⟨"2.0", false, false, TagNode.commit "c2" "d2", "p2"⟩]
        [] (SinceArg.tag "2.0")).map (fun l => l.tail.map (fun e => e.release_tag)) =
      .ok ["3.0", "2.0"] ∧
    specKeptTags
        (fun s => if s = "3.0" then some 30 else if s = "2.0" then some 20
          else if s = "1.0" then some 10 else none)
        [⟨"1.0", false, false, TagNode.commit "c1" "d1", "p1"⟩,
         ⟨"3.0", false, false, TagNode.commit "c3" "d3", "p3"⟩,
         ⟨"2.0", false, false, TagNode.commit "c2" "d2", "p2"⟩] "2.0" = ["3.0"] ∧
    (["3.0", "2.0"] : List String) ≠ ["3.0"] := by
  refine ⟨rfl, rfl, ?_⟩
  decide

/-- Witness for C3 (amended): the unknown-tag error, the kept-window
formula, and the version-filter characterization, at a three-release
repository with since tag "2.0". -/
theorem c3_since_partition_witness :
    releaseInfoV4
        (fun s => if s = "3.0" then some 30 else if s = "2.0" then some 20
          else if s = "1.0" then some 10 else none)
        (fun _ _ => []) "NOW" "master" []
        [⟨"1.0", false, false, TagNode.commit "c1" "d1", "p1"⟩,
         ⟨"3.0", false, false, TagNode.commit "c3" "d3", "p3"⟩,
         ⟨"2.0", false, false, TagNode.commit "c2" "d2", "p2"⟩]
        [] (SinceArg.tag "9.9") = .error sinceErrMsg ∧
    ([(⟨"", "", Option.none, "NOW", some [], []⟩ : RelEntry),
      ⟨"3.0", "p3", some "c3", "d3", some [], []⟩,
      ⟨"2.0", "p2", some "c2", "d2", some [], []⟩] : List RelEntry).tail.map
        (fun e => e.release_tag) = ((["3.0", "2.0", "1.0"] : List String).take 3).dropLast ∧
    ([(⟨"", "", Option.none, "NOW", some [], []⟩ : RelEntry),
      ⟨"3.0", "p3", some "c3", "d3", some [], []⟩,
      ⟨"2.0", "p2", some "c2", "d2", some [], []⟩] : List RelEntry).tail.map
        (fun e => e.release_tag) = ["3.0", "2.0"] :=
  ⟨(c3_since_partition
      (fun s => if s = "3.0" then some 30 else if s = "2.0" then some 20
        else if s = "1.0" then some 10 else none)
      (fun _ _ => []) "NOW" "master" []
      [⟨"1.0", false, false, TagNode.commit "c1" "d1", "p1"⟩,
       ⟨"3.0", false, false, TagNode.commit "c3" "d3", "p3"⟩,
       ⟨"2.0", false, false, TagNode.commit "c2" "d2", "p2"⟩]
      [] "9.9").1 (by decide),
   (c3_since_partition
      (fun s => if s = "3.0" then some 30 else if s = "2.0" then some 20
        else if s = "1.0" then some 10 else none)
      (fun _ _ => []) "NOW" "master" []
      [⟨"1.0", false, false, TagNode.commit "c1" "d1", "p1"⟩,
       ⟨"3.0", false, false, TagNode.commit "c3" "d3", "p3"⟩,
       ⟨"2.0", false, false, TagNode.commit "c2" "d2", "p2"⟩]
      [] "2.0").2.1
      [(⟨"", "", Option.none, "NOW", some [], []⟩ : RelEntry),
       ⟨"3.0", "p3", some "c3", "d3", some [], []⟩,
       ⟨"2.0", "p2", some "c2", "d2", some [], []⟩] (by rfl),
   ((c3_since_partition
      (fun s => if s = "3.0" then some 30 else if s = "2.0" then some 20
        else if s = "1.0" then some 10 else none)
      (fun _ _ => []) "NOW" "master" []
      [⟨"1.0", false, false, TagNode.commit "c1" "d1", "p1"⟩,
       ⟨"3.0", false, false, TagNode.commit "c3" "d3", "p3"⟩,
       ⟨"2.0", false, false, TagNode.commit "c2" "d2", "p2"⟩]
      [] "2.0").2.2 (by decide) (by decide)
      [(⟨"", "", Option.none, "NOW", some [], []⟩ : RelEntry),
       ⟨"3.0", "p3", some "c3", "d3", some [], []⟩,
       ⟨"2.0", "p2", some "c2", "d2", some [], []⟩] (by rfl)).1 (by decide)⟩

/-- The head of a nonempty `dropWhile` result fails the predicate. -/
theorem head_dropWhile_false {α : Type} (p : α → Bool) :
    ∀ (l : List α) {c : α} {rest : List α}, l.dropWhile p = c :: rest → p c = false := by
  intro l
  induction l with
  | nil =>
    intro c rest h
    exact List.noConfusion h
  | cons a l ih =>
    intro c rest h
    rw [List.dropWhile_cons] at h
    split at h
    · exact ih h
    · rename_i hpa
      injection h with h1 _
      subst h1
      exact Bool.eq_false_iff.mpr hpa

/-- `takeWhile` passes over a prefix whose elements all satisfy the
predicate. -/
theorem takeWhile_append_all {α : Type} (p : α → Bool) :
    ∀ (l₁ l₂ : List α), (∀ x ∈ l₁, p x = true) →
      (l₁ ++ l₂).takeWhile p = l₁ ++ l₂.takeWhile p := by
  intro l₁
  induction l₁ with
  | nil =>
    intro l₂ _
    rfl
  | cons a l ih =>
    intro l₂ h
    rw [List.cons_append, List.takeWhile_cons, if_pos (h a (by simp)), List.cons_append,
      ih l₂ (fun x hx => h x (by simp [hx]))]

/-- `dropWhile` skips a prefix whose elements all satisfy the
predicate. -/
theorem dropWhile_append_all {α : Type} (p : α → Bool) :
    ∀ (l₁ l₂ : List α), (∀ x ∈ l₁, p x = true) →
      (l₁ ++ l₂).dropWhile p = l₂.dropWhile p := by
  intro l₁
  induction l₁ with
  | nil =>
    intro l₂ _
    rfl
  | cons a l ih =>
    intro l₂ h
    rw [List.cons_append, List.dropWhile_cons, if_pos (h a (by simp))]
    exact ih l₂ (fun x hx => h x (by simp [hx]))

/-- Unfolding of a coherent linear state at its first release
boundary. -/
theorem linearB_destruct {hist : List Commit} {r : Release} {rs : List Release}
    (h : linearB hist (r :: rs) = true) :
    ∃ pre c rest, hist = pre ++ c :: rest ∧
      hist.takeWhile (fun x => x.oid != r.sha) = pre ∧
      hist.dropWhile (fun x => x.oid != r.sha) = c :: rest ∧
      c.oid = r.sha ∧
      (∀ x ∈ pre, ∀ r2 ∈ r :: rs, x.oid ≠ r2.sha) ∧
      (∀ r2 ∈ rs, r.sha ≠ r2.sha) ∧
      (∀ x ∈ rest, x.oid ≠ r.sha) ∧
      linearB rest rs = true := by
  unfold linearB at h
  split at h
  · exact Bool.noConfusion h
  · rename_i c rest hdrop
    simp only [Bool.and_eq_true] at h
    obtain ⟨⟨⟨hfree, hdist⟩, hrest⟩, hlin⟩ := h
    refine ⟨hist.takeWhile (fun x => x.oid != r.sha), c, rest, ?_, rfl, hdrop, ?_, ?_, ?_, ?_, hlin⟩
    · rw [← hdrop, List.takeWhile_append_dropWhile]
    · have := head_dropWhile_false _ hist hdrop
      simpa using this
    · intro x hx r2 hr2
      have hf := (List.all_eq_true.mp (by
        have : freeOf (hist.takeWhile (fun x => x.oid != r.sha)) (r :: rs) = true := hfree
        exact this)) x hx
      have := (List.all_eq_true.mp hf) r2 hr2
      simpa using this
    · intro r2 hr2
      have := (List.all_eq_true.mp hdist) r2 hr2
      simpa using this
    · intro x hx
      have := (List.all_eq_true.mp hrest) x hx
      simpa using this

/-- A coherent linear state for `r :: r2 :: rs` is also coherent for
`r2 :: rs`: dropping the newest release keeps the rest linear. -/
theorem linearB_tail {hist : List Commit} {r r2 : Release} {rs : List Release}
    (h : linearB hist (r :: r2 :: rs) = true) : linearB hist (r2 :: rs) = true := by
  obtain ⟨pre, c, rest, hsplit, htake, hdrop, hco, hpre, hdist, hrest, hlin⟩ :=
    linearB_destruct h
  obtain ⟨pre2, c2, rest2, hsplit2, htake2, hdrop2, hco2, hpre2, hdist2, hrest2, hlin2⟩ :=
    linearB_destruct hlin
  have hcr2 : (c.oid != r2.sha) = true := by
    simp only [bne_iff_ne]
    rw [hco]
    exact hdist r2 (by simp)
  have hd : hist.dropWhile (fun x => x.oid != r2.sha) = c2 :: rest2 := by
    rw [hsplit, dropWhile_append_all _ pre (c :: rest)
      (fun x hx => by simp [bne_iff_ne]; exact hpre x hx r2 (by simp)),
      List.dropWhile_cons, if_pos hcr2, hdrop2]
  have ht : hist.takeWhile (fun x => x.oid != r2.sha) = pre ++ c :: pre2 := by
    rw [hsplit, takeWhile_append_all _ pre (c :: rest)
      (fun x hx => by simp [bne_iff_ne]; exact hpre x hx r2 (by simp)),
      List.takeWhile_cons, if_pos hcr2, htake2]
  unfold linearB
  rw [hd]
  simp only [Bool.and_eq_true]
  refine ⟨⟨⟨?_, ?_⟩, ?_⟩, hlin2⟩
  · rw [ht]
    unfold freeOf
    rw [List.all_eq_true]
    intro x hx
    rw [List.all_eq_true]
    intro r3 hr3
    simp only [bne_iff_ne]
    rcases List.mem_append.mp hx with hx1 | hx1
    · exact hpre x hx1 r3 (by simp [List.mem_cons.mp hr3])
    · rcases List.mem_cons.mp hx1 with rfl | hx2
      · rw [hco]
        exact hdist r3 hr3
      · exact hpre2 x hx2 r3 hr3
  · rw [List.all_eq_true]
    intro r3 hr3
    simpa using hdist2 r3 hr3
  · rw [List.all_eq_true]
    intro x hx
    simpa using hrest2 x hx

/-- On a coherent state, searching the next boundary from the full
history or from the suffix at the current boundary is the same. -/
theorem dropWhile_through {hist : List Commit} {r r2 : Release} {rs : List Release}
    (h : linearB hist (r :: r2 :: rs) = true) :
    hist.dropWhile (fun c => c.oid != r2.sha) =
      (hist.dropWhile (fun c => c.oid != r.sha)).dropWhile (fun c => c.oid != r2.sha) := by
  obtain ⟨pre, c, rest, hsplit, htake, hdrop, hco, hpre, hdist, hrest, hlin⟩ :=
    linearB_destruct h
  rw [hdrop]
  conv_lhs => rw [hsplit]
  rw [dropWhile_append_all _ pre (c :: rest)
    (fun x hx => by simp [bne_iff_ne]; exact hpre x hx r2 (by simp))]

/-- `dropLast` of a cons with nonempty tail keeps the head. -/
theorem dropLast_cons_ne {α : Type} (x : α) (l : List α) (h : l ≠ []) :
    (x :: l).dropLast = x :: l.dropLast := by
  cases l with
  | nil => exact absurd rfl h
  | cons a l => rfl

/-- `chopFrom` never returns an empty window list for a nonempty
release list. -/
theorem chopFrom_ne_nil (h : List Commit) (r : Release) (rs : List Release) :
    chopFrom h (r :: rs) ≠ [] := by
  cases rs with
  | nil => simp [chopFrom]
  | cons r2 rs => simp [chopFrom]

/-- The pair windows after the unreleased one are the traversal windows
from the first boundary, without the oldest one, contents reversed. -/
theorem pairTail_chop : ∀ (rs : List Release) (r : Release) (hist : List Commit),
    linearB hist (r :: rs) = true →
    ((r :: rs).tail.zip (r :: rs)).map
        (fun p => (p.2.tag, linearCompare hist p.1.sha p.2.sha)) =
      ((chopFrom (hist.dropWhile (fun c => c.oid != r.sha)) (r :: rs)).dropLast).map
        (fun w => (w.1, w.2.reverse)) := by
  intro rs
  induction rs with
  | nil =>
    intro r hist _
    rfl
  | cons r2 rs ih =>
    intro r hist h
    have htail := linearB_tail h
    have hih := ih r2 hist htail
    have hthrough := dropWhile_through h
    show ((r2 :: rs).zip (r :: r2 :: rs)).map
        (fun p => (p.2.tag, linearCompare hist p.1.sha p.2.sha)) = _
    rw [List.zip_cons_cons, List.map_cons]
    have hfrom : chopFrom (hist.dropWhile (fun c => c.oid != r.sha)) (r :: r2 :: rs) =
        (r.tag, (hist.dropWhile (fun c => c.oid != r.sha)).takeWhile
            (fun c => c.oid != r2.sha)) ::
          chopFrom ((hist.dropWhile (fun c => c.oid != r.sha)).dropWhile
            (fun c => c.oid != r2.sha)) (r2 :: rs) := rfl
    rw [hfrom]
    rw [dropLast_cons_ne _ _ (chopFrom_ne_nil _ r2 rs), List.map_cons]
    congr 1
    rw [hthrough] at hih
    simp only [List.tail_cons] at hih
    exact hih

/-- The per-pair strategy yields the traversal windows without the
oldest release window, contents reversed (compare returns oldest
first). -/
theorem pairWindows_chop (hist : List Commit) (rels : List Release)
    (h : linearB hist rels = true) (hne : rels ≠ []) :
    pairWindows hist rels =
      ((chopWindows hist rels).dropLast).map (fun w => (w.1, w.2.reverse)) := by
  cases rels with
  | nil => exact absurd rfl hne
  | cons r rs =>
    show ("", (hist.takeWhile (fun c => c.oid != r.sha)).reverse) ::
        ((r :: rs).tail.zip (r :: rs)).map
          (fun p => (p.2.tag, linearCompare hist p.1.sha p.2.sha)) = _
    rw [pairTail_chop rs r hist h]
    show _ = ((( ("", hist.takeWhile (fun c => c.oid != r.sha)) ::
        chopFrom (hist.dropWhile (fun c => c.oid != r.sha)) (r :: rs)).dropLast).map
          (fun w => (w.1, w.2.reverse)))
    have hne2 := chopFrom_ne_nil (hist.dropWhile (fun c => c.oid != r.sha)) r rs
    have hdl : (( ("", hist.takeWhile (fun c => c.oid != r.sha)) ::
        chopFrom (hist.dropWhile (fun c => c.oid != r.sha)) (r :: rs)).dropLast) =
        ("", hist.takeWhile (fun c => c.oid != r.sha)) ::
          (chopFrom (hist.dropWhile (fun c => c.oid != r.sha)) (r :: rs)).dropLast := by
      cases hc : chopFrom (hist.dropWhile (fun c => c.oid != r.sha)) (r :: rs) with
      | nil => exact absurd hc hne2
      | cons a l => rfl
    rw [hdl, List.map_cons]

/-- Appending a commit to the last window, when the window list is an
explicit snoc. -/
theorem appendToLast_snoc (ws : List (String × List Commit)) (t : String)
    (cs : List Commit) (c : Commit) :
    appendToLast (ws ++ [(t, cs)]) c = ws ++ [(t, cs ++ [c])] := by
  induction ws with
  | nil => rfl
  | cons w ws ih =>
    rw [List.cons_append, List.cons_append]
    have hne : ws ++ [(t, cs)] ≠ [] := by simp
    cases hx : ws ++ [(t, cs)] with
    | nil => exact absurd hx hne
    | cons a l =>
      show appendToLast (w :: a :: l) c = _
      rw [show appendToLast (w :: a :: l) c = w :: appendToLast (a :: l) c from rfl]
      rw [← hx, ih]

/-- Commits that open no window are appended to the current last
window. -/
theorem walkLoop_no_match (rels : List Release) :
    ∀ (pre l₂ : List Commit) (ws : List (String × List Commit)) (t : String) (cs : List Commit),
      (∀ x ∈ pre, rels.filter (fun r => r.sha == x.oid) = []) →
      walkLoop rels (ws ++ [(t, cs)]) (pre ++ l₂) =
        walkLoop rels (ws ++ [(t, cs ++ pre)]) l₂ := by
  intro pre
  induction pre with
  | nil =>
    intro l₂ ws t cs _
    simp
  | cons c pre ih =>
    intro l₂ ws t cs h
    rw [List.cons_append]
    show walkLoop rels (appendToLast ((ws ++ [(t, cs)]) ++
        ((rels.filter (fun r => r.sha == c.oid)).map (fun r => (r.tag, ([] : List Commit))))) c)
      (pre ++ l₂) = _
    rw [h c (by simp), List.map_nil, List.append_nil, appendToLast_snoc]
    rw [ih l₂ ws t (cs ++ [c]) (fun x hx => h x (by simp [hx]))]
    simp

/-- Releases none of which resolve to the given commit are filtered
away. -/
theorem relFilter_nil {l : List Release} {x : Commit}
    (hx : ∀ r2 ∈ l, x.oid ≠ r2.sha) :
    l.filter (fun r2 => r2.sha == x.oid) = [] :=
  List.filter_eq_nil_iff.mpr (fun r3 h3 => by
    simp only [beq_iff_eq]
    exact fun he => hx r3 h3 he.symm)

/-- The traversal loop on a coherent state produces the chop windows:
the prefix up to the first boundary extends the current window, and
from there one window opens per release. -/
theorem walkLoop_chop : ∀ (rs : List Release) (r : Release) (hist : List Commit)
    (RELS : List Release) (ws : List (String × List Commit)) (t : String) (cs : List Commit),
    linearB hist (r :: rs) = true →
    (∀ x ∈ hist, RELS.filter (fun r2 => r2.sha == x.oid) =
      (r :: rs).filter (fun r2 => r2.sha == x.oid)) →
    walkLoop RELS (ws ++ [(t, cs)]) hist =
      (ws ++ [(t, cs ++ hist.takeWhile (fun c => c.oid != r.sha))]) ++
        chopFrom (hist.dropWhile (fun c => c.oid != r.sha)) (r :: rs) := by
  intro rs
  induction rs with
  | nil =>
    intro r hist RELS ws t cs h hmatch
    obtain ⟨pre, c, rest, hsplit, htake, hdrop, hco, hpre, hdist, hrest, hlin⟩ :=
      linearB_destruct h
    have hfilpre : ∀ x ∈ pre, RELS.filter (fun r2 => r2.sha == x.oid) = [] := by
      intro x hx
      rw [hmatch x (by rw [hsplit]; simp [hx])]
      exact relFilter_nil (fun r2 h2 => hpre x hx r2 h2)
    have hfilrest : ∀ x ∈ rest, RELS.filter (fun r2 => r2.sha == x.oid) = [] := by
      intro x hx
      rw [hmatch x (by rw [hsplit]; simp [hx])]
      refine relFilter_nil (fun r2 h2 => ?_)
      rcases List.mem_cons.mp h2 with rfl | h3
      · exact hrest x hx
      · exact absurd h3 (List.not_mem_nil r2)
    have hfc : RELS.filter (fun r2 => r2.sha == c.oid) = [r] := by
      rw [hmatch c (by rw [hsplit]; simp)]
      simp only [List.filter_cons, List.filter_nil]
      rw [if_pos (by simp only [beq_iff_eq]; exact hco.symm)]
    conv_lhs => rw [hsplit]
    rw [walkLoop_no_match RELS pre (c :: rest) ws t cs hfilpre]
    show walkLoop RELS (appendToLast ((ws ++ [(t, cs ++ pre)]) ++
        ((RELS.filter (fun r2 => r2.sha == c.oid)).map
          (fun r2 => (r2.tag, ([] : List Commit))))) c) rest = _
    rw [hfc]
    show walkLoop RELS (appendToLast ((ws ++ [(t, cs ++ pre)]) ++ [(r.tag, [])]) c) rest = _
    rw [appendToLast_snoc (ws ++ [(t, cs ++ pre)]) r.tag [] c]
    conv_lhs => rw [show rest = rest ++ [] by simp]
    rw [walkLoop_no_match RELS rest [] (ws ++ [(t, cs ++ pre)]) r.tag ([] ++ [c]) hfilrest]
    show (ws ++ [(t, cs ++ pre)]) ++ [(r.tag, ([] ++ [c]) ++ rest)] = _
    rw [htake, hdrop]
    simp [chopFrom]
  | cons r2 rs ih =>
    intro r hist RELS ws t cs h hmatch
    obtain ⟨pre, c, rest, hsplit, htake, hdrop, hco, hpre, hdist, hrest, hlin⟩ :=
      linearB_destruct h
    have hfilpre : ∀ x ∈ pre, RELS.filter (fun r2 => r2.sha == x.oid) = [] := by
      intro x hx
      rw [hmatch x (by rw [hsplit]; simp [hx])]
      exact relFilter_nil (fun r3 h3 => hpre x hx r3 h3)
    have hfc : RELS.filter (fun r3 => r3.sha == c.oid) = [r] := by
      rw [hmatch c (by rw [hsplit]; simp)]
      have h1 : (r2 :: rs).filter (fun r3 => r3.sha == c.oid) = [] :=
        relFilter_nil (fun r3 h3 => by rw [hco]; exact hdist r3 h3)
      rw [List.filter_cons, if_pos (by simp only [beq_iff_eq]; exact hco.symm), h1]
    have hmatchrest : ∀ x ∈ rest, RELS.filter (fun r3 => r3.sha == x.oid) =
        (r2 :: rs).filter (fun r3 => r3.sha == x.oid) := by
      intro x hx
      rw [hmatch x (by rw [hsplit]; simp [hx])]
      simp only [List.filter_cons]
      rw [if_neg (by simp only [beq_iff_eq]; exact fun he => hrest x hx he.symm)]
    conv_lhs => rw [hsplit]
    rw [walkLoop_no_match RELS pre (c :: rest) ws t cs hfilpre]
    show walkLoop RELS (appendToLast ((ws ++ [(t, cs ++ pre)]) ++
        ((RELS.filter (fun r3 => r3.sha == c.oid)).map
          (fun r3 => (r3.tag, ([] : List Commit))))) c) rest = _
    rw [hfc]
    show walkLoop RELS (appendToLast ((ws ++ [(t, cs ++ pre)]) ++ [(r.tag, [])]) c) rest = _
    rw [appendToLast_snoc (ws ++ [(t, cs ++ pre)]) r.tag [] c]
    rw [ih r2 rest RELS (ws ++ [(t, cs ++ pre)]) r.tag ([] ++ [c]) hlin hmatchrest]
    rw [htake, hdrop]
    have hcr2 : (c.oid != r2.sha) = true := by
      simp only [bne_iff_ne, hco]
      exact hdist r2 (by simp)
    have hchop : chopFrom (c :: rest) (r :: r2 :: rs) =
        (r.tag, c :: rest.takeWhile (fun x => x.oid != r2.sha)) ::
          chopFrom (rest.dropWhile (fun x => x.oid != r2.sha)) (r2 :: rs) := by
      show (r.tag, (c :: rest).takeWhile (fun x => x.oid != r2.sha)) ::
          chopFrom ((c :: rest).dropWhile (fun x => x.oid != r2.sha)) (r2 :: rs) = _
      rw [List.takeWhile_cons, if_pos hcr2, List.dropWhile_cons, if_pos hcr2]
    rw [hchop]
    simp

/-- On a coherent linear state the traversal equals its closed chop
form. -/
theorem walkWindows_chop (hist : List Commit) (rels : List Release)
    (h : linearB hist rels = true) :
    walkWindows hist rels = chopWindows hist rels := by
  cases rels with
  | nil =>
    have h0 := walkLoop_no_match ([] : List Release) hist []
      ([] : List (String × List Commit)) "" [] (fun x _ => rfl)
    simp only [List.nil_append, List.append_nil] at h0
    exact h0
  | cons r rs =>
    have h0 := walkLoop_chop rs r hist (r :: rs) [] "" [] h (fun x _ => rfl)
    simp only [List.nil_append, List.singleton_append] at h0
    exact h0

/-- C4 (amended): on a coherent linear repository state with at least
one release, the per-pair head/base comparison strategy produces
exactly the windows of the single linear-history traversal except the
window of the oldest release (the per-pair loop has no base to compare
it against), with each window labelled identically and its commit range
reversed (the compare endpoint returns commits oldest first while the
traversal collects them newest first). -/
theorem c4_strategy_windows (hist : List Commit) (rels : List Release)
    (hlin : linearB hist rels = true) (hne : rels ≠ []) :
    pairWindows hist rels =
      ((walkWindows hist rels).dropLast).map (fun w => (w.1, w.2.reverse)) := by
  rw [walkWindows_chop hist rels hlin]
  exact pairWindows_chop hist rels hlin hne

/-- Counterexample for C4 as stated: one release on a one-commit
history — the traversal produces a window for it, the per-pair strategy
does not, so the two strategies do not produce identical window
lists. -/
theorem c4_counterexample :
    pairWindows [⟨"c1", "m1"⟩] [⟨"1.0", "c1"⟩] = [("", [])] ∧
    walkWindows [⟨"c1", "m1"⟩] [⟨"1.0", "c1"⟩] = [("", []), ("1.0", [⟨"c1", "m1"⟩])] ∧
    pairWindows [⟨"c1", "m1"⟩] [⟨"1.0", "c1"⟩] ≠
      walkWindows [⟨"c1", "m1"⟩] [⟨"1.0", "c1"⟩] := by
  refine ⟨rfl, rfl, ?_⟩
  decide

/-- Witness for C4 (amended) on a three-commit history with two
releases. -/
theorem c4_strategy_windows_witness :
    pairWindows [⟨"c3", "m3"⟩, ⟨"c2", "m2"⟩, ⟨"c1", "m1"⟩]
        [⟨"2.0", "c2"⟩, ⟨"1.0", "c1"⟩] =
      ((walkWindows [⟨"c3", "m3"⟩, ⟨"c2", "m2"⟩, ⟨"c1", "m1"⟩]
        [⟨"2.0", "c2"⟩, ⟨"1.0", "c1"⟩]).dropLast).map (fun w => (w.1, w.2.reverse)) :=
  c4_strategy_windows [⟨"c3", "m3"⟩, ⟨"c2", "m2"⟩, ⟨"c1", "m1"⟩]
    [⟨"2.0", "c2"⟩, ⟨"1.0", "c1"⟩] (by decide) (by decide)

end Skare3
